import Mathlib

/-!
Shallow embedding of the grammar-fuzzer core from `src/main.rs`:
the fragment data model, the two-pass grammar compiler `GrammarRust::new`,
the xorshift random source `GrammarRust::rand`, and the iterative
derivation engine `GrammarRust::generate`.

Modelling conventions:
  - `usize` values are `Nat`, truncated with `% 2 ^ 64` exactly where the
    64-bit word width matters (the xorshift shifts).
  - `Vec<T>` is `List T`; a `Vec` used as a stack has its top at the list
    head (Rust pushes/pops at the back; the orientation is reversed, so
    `push x` is `x :: stack`).
  - Rust panics (failed `assert!`, indexing a missing `BTreeMap` key,
    `% 0`, out-of-bounds slice indexing, `Option::unwrap` on `None`) are
    explicit error values: `Except CompileError` during construction,
    the `GenResult.panic` outcome during generation.
  - The raw grammar (Rust's `Grammar`, a map from rule name to a list of
    alternatives) is an association list in iteration order; both passes
    of `GrammarRust::new` traverse it in the same order, as the Rust code
    iterates the same map twice.
  - The generation loop `while !stack.is_empty()` is given explicit fuel;
    `GenResult.fuelOut` means the loop was cut off, not that the program
    failed.
-/

/-- UTF-8 encoding of one character, as byte values; models what
`str::as_bytes` exposes for each scalar value of the string. -/
def utf8Bytes (c : Char) : List Nat :=
  let n := c.toNat
  if n < 0x80 then [n]
  else if n < 0x800 then [0xC0 ||| (n >>> 6), 0x80 ||| (n &&& 0x3F)]
  else if n < 0x10000 then
    [0xE0 ||| (n >>> 12), 0x80 ||| ((n >>> 6) &&& 0x3F), 0x80 ||| (n &&& 0x3F)]
  else
    [0xF0 ||| (n >>> 18), 0x80 ||| ((n >>> 12) &&& 0x3F),
     0x80 ||| ((n >>> 6) &&& 0x3F), 0x80 ||| (n &&& 0x3F)]

/-- Byte sequence of a string: models `option.as_bytes().to_vec()` in
`GrammarRust::new`. -/
def strBytes (s : String) : List Nat := (s.data.map utf8Bytes).flatten

/-- Fragment of a compiled grammar (src/main.rs, `enum Fragment`).
`FragmentId` (a `usize` index into the arena) is modelled as `Nat`. -/
inductive Fragment where
  | NonTerminal : List Nat → Fragment
  | Expression : List Nat → Fragment
  | Terminal : List Nat → Fragment
  deriving DecidableEq

/-- Compiled grammar (src/main.rs, `struct GrammarRust`). The
`name_to_fragment` BTreeMap is an association list with unique keys; the
`seed` Cell is an ordinary field, mutated by returning an updated record. -/
structure GrammarRust where
  fragments : List Fragment
  start : Option Nat
  name_to_fragment : List (String × Nat)
  seed : Nat
  deriving DecidableEq

/-- Lookup in the `name_to_fragment` map (BTreeMap `get` / `contains_key`). -/
def lookupName (key : String) : List (String × Nat) → Option Nat
  | [] => none
  | (k, v) :: rest => if key = k then some v else lookupName key rest

/-- One xorshift update of the 64-bit state word (src/main.rs lines
116-124): `seed ^= seed << 13; seed ^= seed >> 17; seed ^= seed << 43`,
each shift truncated to 64 bits as on `usize`. -/
def rand64 (seed : Nat) : Nat :=
  let s0 := seed % 2 ^ 64
  let s1 := Nat.xor s0 ((s0 <<< 13) % 2 ^ 64)
  let s2 := Nat.xor s1 (s1 >>> 17)
  let s3 := Nat.xor s2 ((s2 <<< 43) % 2 ^ 64)
  s3

/-- Models `GrammarRust::rand`: advances the stored seed and returns the
new state value. -/
def GrammarRust.rand (g : GrammarRust) : GrammarRust × Nat :=
  ({ g with seed := rand64 g.seed }, rand64 g.seed)

/-- Models `GrammarRust::seed(val: usize)`: stores a 64-bit seed value
(the `% 2 ^ 64` is the `usize` width of the argument). -/
def GrammarRust.setSeed (g : GrammarRust) (val : Nat) : GrammarRust :=
  { g with seed := val % 2 ^ 64 }

/-- Construction-time failures of `GrammarRust::new`, which in the Rust
source are panics: the duplicate-name `assert!`, the `BTreeMap` index
`name_to_fragment["<start>"]` on a missing start rule, and the (second
pass) `BTreeMap` index `name_to_fragment[non_term]`. -/
inductive CompileError where
  | DuplicateRuleError : String → CompileError
  | MissingStartRuleError : CompileError
  | RuleLookupPanic : CompileError
  deriving DecidableEq

/-- First pass of `GrammarRust::new` (src/main.rs lines 50-60): for each
rule name, assert it is unseen, allocate an empty `NonTerminal` placeholder
fragment, and record the name resolution. -/
def pass1 : List (String × List (List String)) → List Fragment →
    List (String × Nat) → Except CompileError (List Fragment × List (String × Nat))
  | [], frags, table => .ok (frags, table)
  | (non_term, _) :: rest, frags, table =>
    match lookupName non_term table with
    | some _ => .error (CompileError.DuplicateRuleError non_term)
    | none => pass1 rest (frags ++ [Fragment.NonTerminal []])
        (table ++ [(non_term, frags.length)])

/-- Inner loop of the second pass (src/main.rs lines 75-89): for each
symbol of one alternative, allocate a singleton `NonTerminal` wrapper if
the symbol resolves to a rule, otherwise a `Terminal` with the symbol's
bytes; returns the grown arena and the per-alternative option ids. -/
def buildOptions (table : List (String × Nat)) :
    List String → List Fragment → List Fragment × List Nat
  | [], frags => (frags, [])
  | option :: rest, frags =>
    match lookupName option table with
    | some non_terminal =>
      let r := buildOptions table rest (frags ++ [Fragment.NonTerminal [non_terminal]])
      (r.1, frags.length :: r.2)
    | none =>
      let r := buildOptions table rest (frags ++ [Fragment.Terminal (strBytes option)])
      (r.1, frags.length :: r.2)

/-- Middle loop of the second pass (src/main.rs lines 71-94): for each
alternative, build its options and allocate an `Expression` fragment over
them; returns the grown arena and the per-rule expression ids. -/
def buildExpressions (table : List (String × Nat)) :
    List (List String) → List Fragment → List Fragment × List Nat
  | [], frags => (frags, [])
  | alt :: rest, frags =>
    let o := buildOptions table alt frags
    let r := buildExpressions table rest (o.1 ++ [Fragment.Expression o.2])
    (r.1, o.1.length :: r.2)

/-- Second pass of `GrammarRust::new` (src/main.rs lines 63-102): for each
rule, build its expressions and overwrite the rule's placeholder fragment
in place with `NonTerminal(expressions)`. -/
def pass2 (table : List (String × Nat)) :
    List (String × List (List String)) → List Fragment →
    Except CompileError (List Fragment)
  | [], frags => .ok frags
  | (non_term, fragments) :: rest, frags =>
    match lookupName non_term table with
    | none => .error CompileError.RuleLookupPanic
    | some fragment_id =>
      let e := buildExpressions table fragments frags
      pass2 table rest (e.1.set fragment_id (Fragment.NonTerminal e.2))

/-- Models `GrammarRust::new` (src/main.rs lines 45-109): two passes over
the raw grammar, then resolution of the `<start>` rule. The returned
grammar has seed 0 (`Cell::default`). -/
def GrammarRust.new (grammar : List (String × List (List String))) :
    Except CompileError GrammarRust :=
  match pass1 grammar [] [] with
  | .error e => .error e
  | .ok (frags, table) =>
    match pass2 table grammar frags with
    | .error e => .error e
    | .ok frags2 =>
      match lookupName "<start>" table with
      | none => .error CompileError.MissingStartRuleError
      | some s =>
        .ok { fragments := frags2, start := some s,
              name_to_fragment := table, seed := 0 }

/-- Outcome of a `generate` call: normal return (with the final grammar
state, the residual scratch stack, and the output buffer), a Rust panic,
or fuel exhaustion (the Rust loop would still be running). -/
inductive GenResult where
  | ok (g : GrammarRust) (stack : List Nat) (buf : List Nat)
  | panic
  | fuelOut (g : GrammarRust) (stack : List Nat) (buf : List Nat)
  deriving DecidableEq

/-- The `while !stack.is_empty()` loop of `GrammarRust::generate`
(src/main.rs lines 164-188), with explicit fuel. `NonTerminal`: draw a
random value, select `options[rand % options.len()]` (a `% 0` when
`options` is empty is a panic) and push it. `Expression`: push the
children in reverse order. `Terminal`: append the bytes to the buffer and
break out of the loop if the buffer exceeds 1 MiB. -/
def generateLoop : Nat → GrammarRust → List Nat → List Nat → GenResult
  | 0, g, stack, buf => .fuelOut g stack buf
  | fuel + 1, g, stack, buf =>
    match stack with
    | [] => .ok g [] buf
    | cur :: rest =>
      match g.fragments[cur]? with
      | none => .panic
      | some (Fragment.NonTerminal options) =>
        let p := g.rand
        if options.length = 0 then .panic
        else
          match options[p.2 % options.length]? with
          | none => .panic
          | some sel => generateLoop fuel p.1 (sel :: rest) buf
      | some (Fragment.Expression expr) =>
        generateLoop fuel g (expr.reverse.foldl (fun st x => x :: st) rest) buf
      | some (Fragment.Terminal value) =>
        let buf2 := buf ++ value
        if 1024 * 1024 < buf2.length then .ok g rest buf2
        else generateLoop fuel g rest buf2

/-- Models `GrammarRust::generate` (src/main.rs lines 156-190): unwrap the
cached start id (`None` is a panic), clear the caller's scratch stack,
push the start id, and run the loop. -/
def GrammarRust.generate (g : GrammarRust) (fuel : Nat) (stack : List Nat)
    (buf : List Nat) : GenResult :=
  match g.start with
  | none => .panic
  | some start =>
    let stack := List.nil (α := Nat)
    generateLoop fuel g (start :: stack) buf

/-- Reference derivation that always takes child index 0 at every
`NonTerminal` (the derivation a zero RNG state produces); the claim-side
counterpart of `generateLoop` for the zero-seed fixed-point claim. -/
def firstLoop : Nat → GrammarRust → List Nat → List Nat → GenResult
  | 0, g, stack, buf => .fuelOut g stack buf
  | fuel + 1, g, stack, buf =>
    match stack with
    | [] => .ok g [] buf
    | cur :: rest =>
      match g.fragments[cur]? with
      | none => .panic
      | some (Fragment.NonTerminal options) =>
        match options[0]? with
        | none => .panic
        | some sel => firstLoop fuel g (sel :: rest) buf
      | some (Fragment.Expression expr) =>
        firstLoop fuel g (expr.reverse.foldl (fun st x => x :: st) rest) buf
      | some (Fragment.Terminal value) =>
        let buf2 := buf ++ value
        if 1024 * 1024 < buf2.length then .ok g rest buf2
        else firstLoop fuel g rest buf2

/-- First-alternative derivation at the `generate` interface. -/
def firstGenerate (g : GrammarRust) (fuel : Nat) (stack : List Nat)
    (buf : List Nat) : GenResult :=
  match g.start with
  | none => .panic
  | some start =>
    let stack := List.nil (α := Nat)
    firstLoop fuel g (start :: stack) buf

/-- Sequence of output buffers over `n` consecutive `generate` calls,
each starting from a cleared buffer, threading the grammar state and the
scratch stack exactly as the driver loop in `main` does; stops if a call
panics or runs out of fuel. -/
def runSeq : Nat → Nat → GrammarRust → List Nat → List (List Nat)
  | 0, _, _, _ => []
  | n + 1, fuel, g, stack =>
    match g.generate fuel stack [] with
    | .ok g2 stack2 buf => buf :: runSeq n fuel g2 stack2
    | _ => []

/-- Observable content of a generation outcome: which kind of exit it was,
the fragment arena, the start id, the RNG state, the residual stack and
the buffer — everything except the (generation-irrelevant) name table. -/
def GenResult.strip : GenResult →
    Option (Bool × List Fragment × Option Nat × Nat × List Nat × List Nat)
  | .ok g stack buf => some (true, g.fragments, g.start, g.seed, stack, buf)
  | .fuelOut g stack buf => some (false, g.fragments, g.start, g.seed, stack, buf)
  | .panic => none

/-- Largest `Terminal` payload length in a fragment list. -/
def maxTermOf : List Fragment → Nat
  | [] => 0
  | Fragment.Terminal v :: rest => max v.length (maxTermOf rest)
  | _ :: rest => maxTermOf rest

/-- Largest terminal byte-payload length of a compiled grammar. -/
def maxTerminalLen (g : GrammarRust) : Nat := maxTermOf g.fragments

/-- Xorshift update exactly as the claim words it: `s1 = s XOR (s << 13)`,
`s2 = s1 XOR (s1 >> 17)`, `s3 = s2 XOR (s2 << 43)`, on a 64-bit word with
shifts wrapping modulo `2 ^ 64`. -/
def xorshiftSpecStep (s : Nat) : Nat :=
  let s1 := Nat.xor s ((s <<< 13) % 2 ^ 64)
  let s2 := Nat.xor s1 (s1 >>> 17)
  let s3 := Nat.xor s2 ((s2 <<< 43) % 2 ^ 64)
  s3

/-- Well-formedness of one fragment against an arena of `n` fragments:
children are in bounds and a `NonTerminal` has at least one child. -/
def FragWF (n : Nat) : Fragment → Prop
  | Fragment.NonTerminal ch => ch ≠ [] ∧ ∀ c ∈ ch, c < n
  | Fragment.Expression ch => ∀ c ∈ ch, c < n
  | Fragment.Terminal _ => True

/-- Well-formedness of a compiled grammar: a cached in-bounds start id and
well-formed fragments throughout the arena. -/
def GrammarWF (g : GrammarRust) : Prop :=
  (∃ s, g.start = some s ∧ s < g.fragments.length) ∧
  ∀ f ∈ g.fragments, FragWF g.fragments.length f

/-- Raw grammar with a single rule deriving the terminal "a". -/
def rawA : List (String × List (List String)) := [("<start>", [["a"]])]

/-- Compiled form of `rawA`. -/
def gA : GrammarRust :=
  { fragments := [Fragment.NonTerminal [2], Fragment.Terminal [97],
                  Fragment.Expression [1]],
    start := some 0, name_to_fragment := [("<start>", 0)], seed := 0 }

/-- Variant of `gA` with the name table emptied (only generation-relevant
fields kept equal). -/
def gA2 : GrammarRust :=
  { fragments := gA.fragments, start := gA.start,
    name_to_fragment := [], seed := gA.seed }

/-- The spec's sequencing example grammar. -/
def rawZZ : List (String × List (List String)) :=
  [("<start>", [["<a>", "<a>"]]), ("<a>", [["z"]])]

/-- Compiled form of `rawZZ`. -/
def zzG : GrammarRust :=
  { fragments := [Fragment.NonTerminal [4], Fragment.NonTerminal [6],
                  Fragment.NonTerminal [1], Fragment.NonTerminal [1],
                  Fragment.Expression [2, 3], Fragment.Terminal [122],
                  Fragment.Expression [5]],
    start := some 0,
    name_to_fragment := [("<start>", 0), ("<a>", 1)], seed := 0 }

/-- Raw grammar whose start rule has an empty list of alternatives. -/
def rawEmptyAlts : List (String × List (List String)) :=
  [("<start>", ([] : List (List String)))]

/-- Compiled form of `rawEmptyAlts`: the placeholder `NonTerminal []`
survives into the final arena. -/
def gEmptyAlts : GrammarRust :=
  { fragments := [Fragment.NonTerminal []], start := some 0,
    name_to_fragment := [("<start>", 0)], seed := 0 }

/-- Raw grammar with no rule named `<start>`. -/
def rawNoStart : List (String × List (List String)) := [("<a>", [["x"]])]

/-- Raw grammar sequence in which the rule name `<start>` is repeated. -/
def rawDup : List (String × List (List String)) :=
  [("<start>", [["a"]]), ("<start>", [["b"]])]

example : GrammarRust.new rawA = Except.ok gA := rfl
example : GrammarRust.new rawZZ = Except.ok zzG := rfl
example : GrammarRust.new rawEmptyAlts = Except.ok gEmptyAlts := rfl
example : GrammarRust.new rawNoStart =
    Except.error CompileError.MissingStartRuleError := rfl
example : GrammarRust.new rawDup =
    Except.error (CompileError.DuplicateRuleError "<start>") := rfl
example : gA.generate 10 [] [] = GenResult.ok gA [] [97] := by decide
example : zzG.generate 11 [] [] = GenResult.ok zzG [] [122, 122] := by decide
example : zzG.generate 10 [] [] = GenResult.fuelOut zzG [] [122, 122] := by decide
example : gEmptyAlts.generate 5 [] [] = GenResult.panic := by decide
example : rand64 0 = 0 := by decide
example : (zzG.setSeed 7).generate 11 [] [] =
    GenResult.ok (zzG.setSeed (rand64 (rand64 (rand64 (rand64 (rand64 7))))))
      [] [122, 122] := by decide

/-- Name table produced by the first pass for a rule list, starting at a
given next-fragment index: each rule name is paired with the index of its
placeholder fragment, in order. -/
def tabOf : List (String × List (List String)) → Nat → List (String × Nat)
  | [], _ => []
  | p :: rest, n => (p.1, n) :: tabOf rest (n + 1)

/-- Outcome predicate: construction failed with the duplicate-rule error
(and in particular returned no grammar, partially built or otherwise). -/
def failsWithDuplicate (r : Except CompileError GrammarRust) : Prop :=
  match r with
  | Except.error (CompileError.DuplicateRuleError _) => True
  | _ => False

/-- Child ids referenced by one fragment. -/
def Fragment.children : Fragment → List Nat
  | Fragment.NonTerminal ch => ch
  | Fragment.Expression ch => ch
  | Fragment.Terminal _ => []

/-- Invariant carried through the second pass of `GrammarRust::new`.
`t` is the (fixed) name table, `N` the arena length after the first pass,
`raw` the full rule list, `rem` the rules still to process and `fs` the
current arena: the arena is closed (children in bounds), every rule still
to process owns an empty placeholder, and every `NonTerminal` is a
pending placeholder, a processed rule head (one `Expression` child per
alternative of some rule of `raw`, all allocated at or past `N`), or a
single-child symbol-reference wrapper. -/
structure Pass2Inv (t : List (String × Nat)) (N : Nat)
    (raw rem : List (String × List (List String)))
    (fs : List Fragment) : Prop where
  hlen : N ≤ fs.length
  closed : ∀ f ∈ fs, ∀ c ∈ f.children, c < fs.length
  pending : ∀ p ∈ rem, ∃ i, lookupName p.1 t = some i ∧
    fs[i]? = some (Fragment.NonTerminal [])
  ntShape : ∀ i ch, fs[i]? = some (Fragment.NonTerminal ch) →
    (ch = [] ∧ ∃ p ∈ rem, lookupName p.1 t = some i) ∨
    (∃ name alts, (name, alts) ∈ raw ∧ lookupName name t = some i ∧
      ch.length = alts.length ∧
      ∀ e ∈ ch, N ≤ e ∧ ∃ opts, fs[e]? = some (Fragment.Expression opts)) ∨
    ch.length = 1

/-! ## Basic facts about the random source and the loop steps -/

/-- Truncating a seed to 64 bits before the xorshift update changes
nothing: `rand64` reads the state through the 64-bit window anyway. -/
theorem rand64_mod (s : Nat) : rand64 (s % 2 ^ 64) = rand64 s := by
  simp [rand64, Nat.mod_mod_of_dvd]

/-- A grammar record rebuilt with its own seed is itself. -/
theorem grammar_seed_eta (g : GrammarRust) (v : Nat) (h : g.seed = v) :
    { g with seed := v } = g := by
  rw [← h]

/-- On a zero seed, `rand` returns 0 and leaves the grammar unchanged. -/
theorem rand_of_seed_zero (g : GrammarRust) (h : g.seed = 0) : g.rand = (g, 0) := by
  have hz : rand64 g.seed = 0 := by rw [h]; decide
  simp [GrammarRust.rand, hz, grammar_seed_eta g 0 h]

/-- Pushing a list of ids in reverse order onto a stack puts them on top
in their original order: the Rust `expr.iter().rev().for_each(push)`. -/
theorem push_reverse_foldl (l rest : List Nat) :
    l.reverse.foldl (fun st x => x :: st) rest = l ++ rest := by
  induction l generalizing rest with
  | nil => rfl
  | cons a l ih => simp [List.reverse_cons, List.foldl_append, ih]

/-- Loop step: an empty stack returns the buffer. -/
theorem generateLoop_nil (fuel : Nat) (g : GrammarRust) (buf : List Nat) :
    generateLoop (fuel + 1) g [] buf = GenResult.ok g [] buf := rfl

/-- Loop step on a `NonTerminal` with exactly one child: the `% 1` makes
the random draw irrelevant, but the seed still advances. -/
theorem generateLoop_nt1 {g : GrammarRust} {cur sel : Nat} {rest buf : List Nat}
    {fuel : Nat} (h : g.fragments[cur]? = some (Fragment.NonTerminal [sel])) :
    generateLoop (fuel + 1) g (cur :: rest) buf =
      generateLoop fuel { g with seed := rand64 g.seed } (sel :: rest) buf := by
  simp [generateLoop, h, GrammarRust.rand, Nat.mod_one]

/-- Loop step on an `Expression`: the children end up on the stack in
left-to-right order, on top of the remaining work. -/
theorem generateLoop_expr {g : GrammarRust} {cur : Nat} {expr rest buf : List Nat}
    {fuel : Nat} (h : g.fragments[cur]? = some (Fragment.Expression expr)) :
    generateLoop (fuel + 1) g (cur :: rest) buf =
      generateLoop fuel g (expr ++ rest) buf := by
  simp [generateLoop, h, push_reverse_foldl]

/-- Loop step on a `Terminal` that keeps the buffer at or below the
ceiling: append and continue. -/
theorem generateLoop_term_cont {g : GrammarRust} {cur : Nat}
    {value rest buf : List Nat} {fuel : Nat}
    (h : g.fragments[cur]? = some (Fragment.Terminal value))
    (hlen : ¬ 1024 * 1024 < (buf ++ value).length) :
    generateLoop (fuel + 1) g (cur :: rest) buf =
      generateLoop fuel g rest (buf ++ value) := by
  simp only [generateLoop, h]
  rw [if_neg hlen]

/-- Loop step on a `Terminal` that pushes the buffer past the ceiling:
the loop breaks, leaving the rest of the stack unconsumed. -/
theorem generateLoop_term_break {g : GrammarRust} {cur : Nat}
    {value rest buf : List Nat} {fuel : Nat}
    (h : g.fragments[cur]? = some (Fragment.Terminal value))
    (hlen : 1024 * 1024 < (buf ++ value).length) :
    generateLoop (fuel + 1) g (cur :: rest) buf =
      GenResult.ok g rest (buf ++ value) := by
  simp only [generateLoop, h]
  rw [if_pos hlen]

/-- With a zero seed the derivation loop coincides with the
first-alternative reference derivation: the seed stays 0, every draw
returns 0, and `0 % len` selects child 0. -/
theorem zero_seed_loop : ∀ (fuel : Nat) (g : GrammarRust) (stack buf : List Nat),
    g.seed = 0 → generateLoop fuel g stack buf = firstLoop fuel g stack buf := by
  intro fuel
  induction fuel with
  | zero => intro g stack buf _; rfl
  | succ n ih =>
    intro g stack buf h
    cases stack with
    | nil => rfl
    | cons cur rest =>
      cases hf : g.fragments[cur]? with
      | none => simp [generateLoop, firstLoop, hf]
      | some f =>
        cases f with
        | NonTerminal options =>
          have hr : g.rand = (g, 0) := rand_of_seed_zero g h
          cases options with
          | nil => simp [generateLoop, firstLoop, hf]
          | cons o os =>
            simp only [generateLoop, firstLoop, hf, hr]
            simp [ih g (o :: rest) buf h]
        | Expression expr =>
          simp only [generateLoop, firstLoop, hf]
          exact ih g _ buf h
        | Terminal value =>
          simp only [generateLoop, firstLoop, hf]
          split
          · rfl
          · exact ih g rest _ h

/-- Claim C3: one call to `rand` replaces the stored 64-bit state `s` with
the xorshift value `s3` where `s1 = s XOR (s << 13)`,
`s2 = s1 XOR (s1 >> 17)`, `s3 = s2 XOR (s2 << 43)` (shifts truncated
modulo `2 ^ 64`), and returns that new state value. -/
theorem claim_C3_rand_is_xorshift (g : GrammarRust) (h : g.seed < 2 ^ 64) :
    g.rand = ({ g with seed := xorshiftSpecStep g.seed }, xorshiftSpecStep g.seed) := by
  have he : rand64 g.seed = xorshiftSpecStep g.seed := by
    simp only [rand64, xorshiftSpecStep]
    rw [Nat.mod_eq_of_lt h]
  simp [GrammarRust.rand, he]

/-- Claim C3, witness: the theorem instantiated at the concrete compiled
grammar `gA`, whose stored seed is 0. -/
theorem claim_C3_rand_is_xorshift_witness :
    gA.seed < 2 ^ 64 ∧
    gA.rand = ({ gA with seed := xorshiftSpecStep gA.seed }, xorshiftSpecStep gA.seed) :=
  ⟨by decide, claim_C3_rand_is_xorshift gA (by decide)⟩

/-- Claim C10: zero is a fixed point of the RNG — after `seed(0)` a `rand`
call returns 0 and leaves the state 0 — and consequently generation from
a grammar seeded with 0 is exactly the derivation that takes the first
alternative at every `NonTerminal` choice. -/
theorem claim_C10_zero_seed_fixed_point :
    rand64 0 = 0 ∧
    (∀ g : GrammarRust, (g.setSeed 0).rand = (g.setSeed 0, 0)) ∧
    (∀ (g : GrammarRust) (fuel : Nat) (stack buf : List Nat),
      (g.setSeed 0).generate fuel stack buf =
        firstGenerate (g.setSeed 0) fuel stack buf) := by
  refine ⟨rfl, ?_, ?_⟩
  · intro g
    exact rand_of_seed_zero _ rfl
  · intro g fuel stack buf
    show (match (g.setSeed 0).start with
      | none => GenResult.panic
      | some start => generateLoop fuel (g.setSeed 0) [start] buf) =
      (match (g.setSeed 0).start with
      | none => GenResult.panic
      | some start => firstLoop fuel (g.setSeed 0) [start] buf)
    cases (g.setSeed 0).start with
    | none => rfl
    | some s => exact zero_seed_loop fuel (g.setSeed 0) [s] buf rfl

/-! ## Remaining loop-step shapes -/

/-- Loop step on an id outside the arena: the slice index panics. -/
theorem generateLoop_oob {g : GrammarRust} {cur : Nat} {rest buf : List Nat}
    {fuel : Nat} (h : g.fragments[cur]? = none) :
    generateLoop (fuel + 1) g (cur :: rest) buf = GenResult.panic := by
  simp [generateLoop, h]

/-- Loop step on a general `NonTerminal`: draw, then select modulo the
child count (`% 0` panics). -/
theorem generateLoop_nt {g : GrammarRust} {cur : Nat} {options : List Nat}
    {rest buf : List Nat} {fuel : Nat}
    (h : g.fragments[cur]? = some (Fragment.NonTerminal options)) :
    generateLoop (fuel + 1) g (cur :: rest) buf =
      if options.length = 0 then GenResult.panic
      else
        match options[rand64 g.seed % options.length]? with
        | none => GenResult.panic
        | some sel =>
          generateLoop fuel { g with seed := rand64 g.seed } (sel :: rest) buf := by
  simp [generateLoop, h, GrammarRust.rand]

/-! ## The sequencing example: ten concrete steps of the zz grammar -/

/-- Step of the zz derivation at a singleton `NonTerminal`. -/
theorem zz_step_nt1 (x fuel cur sel : Nat) (rest buf : List Nat)
    (h : zzG.fragments[cur]? = some (Fragment.NonTerminal [sel])) :
    generateLoop (fuel + 1) { zzG with seed := x } (cur :: rest) buf =
      generateLoop fuel { zzG with seed := rand64 x } (sel :: rest) buf :=
  generateLoop_nt1 h

/-- Step of the zz derivation at an `Expression`. -/
theorem zz_step_expr (x fuel cur : Nat) (expr rest buf : List Nat)
    (h : zzG.fragments[cur]? = some (Fragment.Expression expr)) :
    generateLoop (fuel + 1) { zzG with seed := x } (cur :: rest) buf =
      generateLoop fuel { zzG with seed := x } (expr ++ rest) buf :=
  generateLoop_expr h

/-- Step of the zz derivation at a `Terminal` below the ceiling. -/
theorem zz_step_term (x fuel cur : Nat) (value rest buf : List Nat)
    (h : zzG.fragments[cur]? = some (Fragment.Terminal value))
    (hlen : ¬ 1024 * 1024 < (buf ++ value).length) :
    generateLoop (fuel + 1) { zzG with seed := x } (cur :: rest) buf =
      generateLoop fuel { zzG with seed := x } rest (buf ++ value) :=
  generateLoop_term_cont h hlen

/-- Full derivation of the zz grammar from any seed: eleven loop
iterations, five seed advances, output exactly `zz`. -/
theorem zz_run (k x : Nat) :
    generateLoop (k + 11) { zzG with seed := x } [0] [] =
      GenResult.ok
        { zzG with seed := rand64 (rand64 (rand64 (rand64 (rand64 x)))) }
        [] [122, 122] := by
  have h1 : generateLoop (k + 11) { zzG with seed := x } [0] [] =
      generateLoop (k + 10) { zzG with seed := rand64 x } [4] [] :=
    zz_step_nt1 x (k + 10) 0 4 [] [] rfl
  have h2 : generateLoop (k + 10) { zzG with seed := rand64 x } [4] [] =
      generateLoop (k + 9) { zzG with seed := rand64 x } [2, 3] [] :=
    zz_step_expr (rand64 x) (k + 9) 4 [2, 3] [] [] rfl
  have h3 : generateLoop (k + 9) { zzG with seed := rand64 x } [2, 3] [] =
      generateLoop (k + 8) { zzG with seed := rand64 (rand64 x) } [1, 3] [] :=
    zz_step_nt1 (rand64 x) (k + 8) 2 1 [3] [] rfl
  have h4 : generateLoop (k + 8) { zzG with seed := rand64 (rand64 x) } [1, 3] [] =
      generateLoop (k + 7) { zzG with seed := rand64 (rand64 (rand64 x)) } [6, 3] [] :=
    zz_step_nt1 (rand64 (rand64 x)) (k + 7) 1 6 [3] [] rfl
  have h5 : generateLoop (k + 7) { zzG with seed := rand64 (rand64 (rand64 x)) } [6, 3] [] =
      generateLoop (k + 6) { zzG with seed := rand64 (rand64 (rand64 x)) } [5, 3] [] :=
    zz_step_expr (rand64 (rand64 (rand64 x))) (k + 6) 6 [5] [3] [] rfl
  have h6 : generateLoop (k + 6) { zzG with seed := rand64 (rand64 (rand64 x)) } [5, 3] [] =
      generateLoop (k + 5) { zzG with seed := rand64 (rand64 (rand64 x)) } [3] [122] :=
    zz_step_term (rand64 (rand64 (rand64 x))) (k + 5) 5 [122] [3] [] rfl (by decide)
  have h7 : generateLoop (k + 5) { zzG with seed := rand64 (rand64 (rand64 x)) } [3] [122] =
      generateLoop (k + 4)
        { zzG with seed := rand64 (rand64 (rand64 (rand64 x))) } [1] [122] :=
    zz_step_nt1 (rand64 (rand64 (rand64 x))) (k + 4) 3 1 [] [122] rfl
  have h8 : generateLoop (k + 4)
        { zzG with seed := rand64 (rand64 (rand64 (rand64 x))) } [1] [122] =
      generateLoop (k + 3)
        { zzG with seed := rand64 (rand64 (rand64 (rand64 (rand64 x)))) } [6] [122] :=
    zz_step_nt1 (rand64 (rand64 (rand64 (rand64 x)))) (k + 3) 1 6 [] [122] rfl
  have h9 : generateLoop (k + 3)
        { zzG with seed := rand64 (rand64 (rand64 (rand64 (rand64 x)))) } [6] [122] =
      generateLoop (k + 2)
        { zzG with seed := rand64 (rand64 (rand64 (rand64 (rand64 x)))) } [5] [122] :=
    zz_step_expr (rand64 (rand64 (rand64 (rand64 (rand64 x))))) (k + 2) 6 [5] [] [122] rfl
  have h10 : generateLoop (k + 2)
        { zzG with seed := rand64 (rand64 (rand64 (rand64 (rand64 x)))) } [5] [122] =
      generateLoop (k + 1)
        { zzG with seed := rand64 (rand64 (rand64 (rand64 (rand64 x)))) } [] [122, 122] :=
    zz_step_term (rand64 (rand64 (rand64 (rand64 (rand64 x))))) (k + 1) 5 [122] [] [122]
      rfl (by decide)
  have h11 : generateLoop (k + 1)
        { zzG with seed := rand64 (rand64 (rand64 (rand64 (rand64 x)))) } [] [122, 122] =
      GenResult.ok
        { zzG with seed := rand64 (rand64 (rand64 (rand64 (rand64 x)))) } [] [122, 122] :=
    generateLoop_nil k _ _
  exact h1.trans (h2.trans (h3.trans (h4.trans (h5.trans (h6.trans (h7.trans
    (h8.trans (h9.trans (h10.trans h11)))))))))

/-- Claim C6: an `Expression` node pushes its children in reverse order,
so they are consumed in left-to-right order (the stack after the step is
`children ++ rest`); and on the compiled zz grammar every `generate` call
from an empty buffer yields exactly the bytes of the string zz. -/
theorem claim_C6_expression_order :
    (∀ (fuel : Nat) (g : GrammarRust) (cur : Nat) (rest buf expr : List Nat),
      g.fragments[cur]? = some (Fragment.Expression expr) →
      generateLoop (fuel + 1) g (cur :: rest) buf =
        generateLoop fuel g (expr ++ rest) buf) ∧
    GrammarRust.new rawZZ = Except.ok zzG ∧
    (∀ s k : Nat, (zzG.setSeed s).generate (k + 11) [] [] =
      GenResult.ok
        { zzG with seed := rand64 (rand64 (rand64 (rand64 (rand64 s)))) }
        [] [122, 122]) := by
  refine ⟨?_, rfl, ?_⟩
  · intro fuel g cur rest buf expr h
    exact generateLoop_expr h
  · intro s k
    have h0 : (zzG.setSeed s).generate (k + 11) [] [] =
        generateLoop (k + 11) { zzG with seed := s % 2 ^ 64 } [0] [] := rfl
    rw [h0, zz_run k (s % 2 ^ 64), rand64_mod]

/-- Claim C6, witness: the expression step at the concrete arena node 4
of the zz grammar, and the zz derivation at seed 5 with fuel 11. -/
theorem claim_C6_expression_order_witness :
    zzG.fragments[4]? = some (Fragment.Expression [2, 3]) ∧
    generateLoop 3 zzG (4 :: [9]) [] = generateLoop 2 zzG ([2, 3] ++ [9]) [] ∧
    (zzG.setSeed 5).generate 11 [] [] =
      GenResult.ok
        { zzG with seed := rand64 (rand64 (rand64 (rand64 (rand64 5)))) }
        [] [122, 122] :=
  ⟨rfl, claim_C6_expression_order.1 2 zzG 4 [9] [] [2, 3] rfl,
    claim_C6_expression_order.2.2 5 0⟩

/-! ## Determinism: the loop reads only arena, seed, stack and buffer -/

/-- Strip-level congruence of the loop: two grammars with equal arenas,
start ids and seeds produce outcomes with identical observable content,
whatever their name tables. -/
theorem generateLoop_strip_congr :
    ∀ (fuel : Nat) (g1 g2 : GrammarRust) (stack buf : List Nat),
    g1.fragments = g2.fragments → g1.start = g2.start → g1.seed = g2.seed →
    (generateLoop fuel g1 stack buf).strip = (generateLoop fuel g2 stack buf).strip := by
  intro fuel
  induction fuel with
  | zero =>
    intro g1 g2 stack buf hf hs hd
    simp [generateLoop, GenResult.strip, hf, hs, hd]
  | succ n ih =>
    intro g1 g2 stack buf hf hs hd
    cases stack with
    | nil => simp [generateLoop, GenResult.strip, hf, hs, hd]
    | cons cur rest =>
      have hf1 : g1.fragments[cur]? = g2.fragments[cur]? := by rw [hf]
      cases hcur : g2.fragments[cur]? with
      | none => rw [generateLoop_oob (hf1.trans hcur), generateLoop_oob hcur]
      | some f =>
        cases f with
        | NonTerminal options =>
          rw [generateLoop_nt (hf1.trans hcur), generateLoop_nt hcur, hd]
          by_cases hlen : options.length = 0
          · simp [hlen]
          · simp only [hlen, if_false]
            cases hsel : options[rand64 g2.seed % options.length]? with
            | none => rfl
            | some sel => exact ih _ _ (sel :: rest) buf hf hs rfl
        | Expression expr =>
          rw [generateLoop_expr (hf1.trans hcur), generateLoop_expr hcur]
          exact ih _ _ _ buf hf hs hd
        | Terminal value =>
          by_cases hlen : 1024 * 1024 < (buf ++ value).length
          · rw [generateLoop_term_break (hf1.trans hcur) hlen,
              generateLoop_term_break hcur hlen]
            simp [GenResult.strip, hf, hs, hd]
          · rw [generateLoop_term_cont (hf1.trans hcur) hlen,
              generateLoop_term_cont hcur hlen]
            exact ih _ _ rest _ hf hs hd

/-- Strip-level congruence at the `generate` interface: the incoming
scratch stacks are irrelevant (both are cleared on entry). -/
theorem generate_strip_congr (fuel : Nat) (g1 g2 : GrammarRust)
    (st1 st2 buf : List Nat) (hf : g1.fragments = g2.fragments)
    (hs : g1.start = g2.start) (hd : g1.seed = g2.seed) :
    (g1.generate fuel st1 buf).strip = (g2.generate fuel st2 buf).strip := by
  unfold GrammarRust.generate
  rw [hs]
  cases hstart : g2.start with
  | none => rfl
  | some s => exact generateLoop_strip_congr fuel g1 g2 [s] buf hf hs hd

/-- Claim C2: generation is a deterministic function of the compiled
grammar's arena and start id, the RNG state at entry, and the buffer at
entry; two runs performing the same sequence of `generate` calls (on
grammars equal in those inputs, whatever their name tables and incoming
scratch stacks) produce identical sequences of output buffers. -/
theorem claim_C2_determinism :
    ∀ (n fuel : Nat) (g1 g2 : GrammarRust) (st1 st2 : List Nat),
    g1.fragments = g2.fragments → g1.start = g2.start → g1.seed = g2.seed →
    runSeq n fuel g1 st1 = runSeq n fuel g2 st2 := by
  intro n
  induction n with
  | zero => intro fuel g1 g2 st1 st2 _ _ _; rfl
  | succ m ih =>
    intro fuel g1 g2 st1 st2 hf hs hd
    have hstr := generate_strip_congr fuel g1 g2 st1 st2 [] hf hs hd
    cases r1 : g1.generate fuel st1 [] with
    | ok g1b stk1 buf1 =>
      cases r2 : g2.generate fuel st2 [] with
      | ok g2b stk2 buf2 =>
        rw [r1, r2] at hstr
        simp only [GenResult.strip, Option.some.injEq, Prod.mk.injEq,
          true_and] at hstr
        obtain ⟨hfr, hst, hsd, hstk, hbuf⟩ := hstr
        simp only [runSeq, r1, r2]
        rw [hbuf, hstk, ih fuel g1b g2b stk2 stk2 hfr hst hsd]
      | panic => rw [r1, r2] at hstr; simp [GenResult.strip] at hstr
      | fuelOut g2b stk2 buf2 =>
        rw [r1, r2] at hstr; simp [GenResult.strip] at hstr
    | panic =>
      cases r2 : g2.generate fuel st2 [] with
      | ok g2b stk2 buf2 => rw [r1, r2] at hstr; simp [GenResult.strip] at hstr
      | panic => simp [runSeq, r1, r2]
      | fuelOut g2b stk2 buf2 => simp [runSeq, r1, r2]
    | fuelOut g1b stk1 buf1 =>
      cases r2 : g2.generate fuel st2 [] with
      | ok g2b stk2 buf2 => rw [r1, r2] at hstr; simp [GenResult.strip] at hstr
      | panic => simp [runSeq, r1, r2]
      | fuelOut g2b stk2 buf2 => simp [runSeq, r1, r2]

/-- Claim C2, witness: two call sequences on the same compiled grammar,
one with the name table removed and a dirty incoming scratch stack,
produce the same buffers. -/
theorem claim_C2_determinism_witness :
    runSeq 2 10 gA [] = runSeq 2 10 gA2 [7] :=
  claim_C2_determinism 2 10 gA gA2 [] [7] rfl rfl rfl

/-! ## Frame effects of one generate call -/

/-- The loop never touches the arena, the start id or the name table, and
only ever appends to the buffer. -/
theorem generateLoop_frame :
    ∀ (fuel : Nat) (g : GrammarRust) (stack buf : List Nat) (g2 : GrammarRust)
      (st2 buf2 : List Nat),
    (generateLoop fuel g stack buf = GenResult.ok g2 st2 buf2 ∨
     generateLoop fuel g stack buf = GenResult.fuelOut g2 st2 buf2) →
    g2.fragments = g.fragments ∧ g2.start = g.start ∧
      g2.name_to_fragment = g.name_to_fragment ∧ buf <+: buf2 := by
  intro fuel
  induction fuel with
  | zero =>
    intro g stack buf g2 st2 buf2 h
    cases h with
    | inl h => exact GenResult.noConfusion h
    | inr h =>
      injection h with h1 h2 h3
      subst h1; subst h3
      exact ⟨rfl, rfl, rfl, List.prefix_rfl⟩
  | succ n ih =>
    intro g stack buf g2 st2 buf2 h
    cases stack with
    | nil =>
      cases h with
      | inl h =>
        injection h with h1 h2 h3
        subst h1; subst h3
        exact ⟨rfl, rfl, rfl, List.prefix_rfl⟩
      | inr h => exact GenResult.noConfusion h
    | cons cur rest =>
      cases hcur : g.fragments[cur]? with
      | none =>
        rw [generateLoop_oob hcur] at h
        cases h with
        | inl h => exact GenResult.noConfusion h
        | inr h => exact GenResult.noConfusion h
      | some f =>
        cases f with
        | NonTerminal options =>
          rw [generateLoop_nt hcur] at h
          by_cases hlen : options.length = 0
          · rw [if_pos hlen] at h
            cases h with
            | inl h => exact GenResult.noConfusion h
            | inr h => exact GenResult.noConfusion h
          · rw [if_neg hlen] at h
            cases hsel : options[rand64 g.seed % options.length]? with
            | none =>
              rw [hsel] at h
              cases h with
              | inl h => exact GenResult.noConfusion h
              | inr h => exact GenResult.noConfusion h
            | some sel =>
              rw [hsel] at h
              exact ih { g with seed := rand64 g.seed } (sel :: rest) buf g2 st2 buf2 h
        | Expression expr =>
          rw [generateLoop_expr hcur] at h
          exact ih g (expr ++ rest) buf g2 st2 buf2 h
        | Terminal value =>
          by_cases hlen : 1024 * 1024 < (buf ++ value).length
          · rw [generateLoop_term_break hcur hlen] at h
            cases h with
            | inl h =>
              injection h with h1 h2 h3
              subst h1; subst h3
              exact ⟨rfl, rfl, rfl, List.prefix_append buf value⟩
            | inr h => exact GenResult.noConfusion h
          · rw [generateLoop_term_cont hcur hlen] at h
            have hrec := ih g rest (buf ++ value) g2 st2 buf2 h
            exact ⟨hrec.1, hrec.2.1, hrec.2.2.1,
              (List.prefix_append buf value).trans hrec.2.2.2⟩

/-- Claim C9: a completed `generate` call leaves the fragment arena, the
name table and the cached start id of the compiled grammar unchanged (the
seed is the only mutated field), only appends to the output buffer (the
bytes present at entry survive as a prefix), and ignores the incoming
contents of the caller's scratch stack, which it clears at entry. -/
theorem claim_C9_frame_effects (g : GrammarRust) (fuel : Nat)
    (stack buf : List Nat) (g2 : GrammarRust) (st2 buf2 : List Nat)
    (h : g.generate fuel stack buf = GenResult.ok g2 st2 buf2) :
    g2.fragments = g.fragments ∧ g2.start = g.start ∧
      g2.name_to_fragment = g.name_to_fragment ∧ buf <+: buf2 ∧
      ∀ stack2 : List Nat, g.generate fuel stack2 buf = g.generate fuel stack buf := by
  unfold GrammarRust.generate at h
  cases hstart : g.start with
  | none =>
    rw [hstart] at h
    exact GenResult.noConfusion h
  | some s =>
    rw [hstart] at h
    have hrec := generateLoop_frame fuel g [s] buf g2 st2 buf2 (Or.inl h)
    exact ⟨hrec.1, hrec.2.1.trans hstart, hrec.2.2.1, hrec.2.2.2,
      fun stack2 => rfl⟩

/-- Claim C9, witness: the frame facts at a completed concrete call. -/
theorem claim_C9_frame_effects_witness :
    gA.generate 10 [] [61] = GenResult.ok gA [] [61, 97] ∧ [61] <+: [61, 97] :=
  ⟨rfl, (claim_C9_frame_effects gA 10 [] [61] gA [] [61, 97] rfl).2.2.2.1⟩

/-! ## The output-size ceiling -/

/-- A terminal payload stored in a fragment list is no longer than the
largest terminal payload of that list. -/
theorem maxTermOf_mem_bound : ∀ (l : List Fragment) (v : List Nat),
    Fragment.Terminal v ∈ l → v.length ≤ maxTermOf l := by
  intro l
  induction l with
  | nil => intro v hv; cases hv
  | cons f rest ih =>
    intro v hv
    cases hv with
    | head =>
      simp only [maxTermOf]
      exact le_max_left _ _
    | tail _ hv =>
      cases f with
      | NonTerminal ch => exact ih v hv
      | Expression ch => exact ih v hv
      | Terminal w =>
        simp only [maxTermOf]
        exact le_trans (ih v hv) (le_max_right _ _)

/-- Loop-level size bound: starting at or below the ceiling, any returned
or suspended buffer is at most the ceiling plus one terminal payload,
because the ceiling is re-checked after every terminal append. -/
theorem generateLoop_len_bound :
    ∀ (fuel : Nat) (g : GrammarRust) (stack buf : List Nat) (g2 : GrammarRust)
      (st2 buf2 : List Nat),
    buf.length ≤ 1024 * 1024 →
    (generateLoop fuel g stack buf = GenResult.ok g2 st2 buf2 ∨
     generateLoop fuel g stack buf = GenResult.fuelOut g2 st2 buf2) →
    buf2.length ≤ 1024 * 1024 + maxTermOf g.fragments := by
  intro fuel
  induction fuel with
  | zero =>
    intro g stack buf g2 st2 buf2 hbuf h
    cases h with
    | inl h => exact GenResult.noConfusion h
    | inr h =>
      injection h with h1 h2 h3
      subst h3
      exact le_trans hbuf (Nat.le_add_right _ _)
  | succ n ih =>
    intro g stack buf g2 st2 buf2 hbuf h
    cases stack with
    | nil =>
      cases h with
      | inl h =>
        injection h with h1 h2 h3
        subst h3
        exact le_trans hbuf (Nat.le_add_right _ _)
      | inr h => exact GenResult.noConfusion h
    | cons cur rest =>
      cases hcur : g.fragments[cur]? with
      | none =>
        rw [generateLoop_oob hcur] at h
        cases h with
        | inl h => exact GenResult.noConfusion h
        | inr h => exact GenResult.noConfusion h
      | some f =>
        cases f with
        | NonTerminal options =>
          rw [generateLoop_nt hcur] at h
          by_cases hlen : options.length = 0
          · rw [if_pos hlen] at h
            cases h with
            | inl h => exact GenResult.noConfusion h
            | inr h => exact GenResult.noConfusion h
          · rw [if_neg hlen] at h
            cases hsel : options[rand64 g.seed % options.length]? with
            | none =>
              rw [hsel] at h
              cases h with
              | inl h => exact GenResult.noConfusion h
              | inr h => exact GenResult.noConfusion h
            | some sel =>
              rw [hsel] at h
              exact ih { g with seed := rand64 g.seed } (sel :: rest) buf
                g2 st2 buf2 hbuf h
        | Expression expr =>
          rw [generateLoop_expr hcur] at h
          exact ih g (expr ++ rest) buf g2 st2 buf2 hbuf h
        | Terminal value =>
          have hval : value.length ≤ maxTermOf g.fragments :=
            maxTermOf_mem_bound g.fragments value (List.getElem?_mem hcur)
          by_cases hlen : 1024 * 1024 < (buf ++ value).length
          · rw [generateLoop_term_break hcur hlen] at h
            cases h with
            | inl h =>
              injection h with h1 h2 h3
              subst h3
              rw [List.length_append]
              omega
            | inr h => exact GenResult.noConfusion h
          · rw [generateLoop_term_cont hcur hlen] at h
            exact ih g rest (buf ++ value) g2 st2 buf2 (by omega) h

/-- Claim C1: for a successfully compiled grammar, a `generate` call that
starts from an empty output buffer and returns produces a buffer of at
most the 1 MiB ceiling plus one terminal payload length — the ceiling is
checked after each terminal append, so at most one overshoot occurs
before the derivation halts. -/
theorem claim_C1_bounded_output (raw : List (String × List (List String)))
    (g : GrammarRust) (fuel : Nat) (stack : List Nat) (g2 : GrammarRust)
    (st2 buf2 : List Nat) (hok : GrammarRust.new raw = Except.ok g)
    (hgen : g.generate fuel stack [] = GenResult.ok g2 st2 buf2) :
    buf2.length ≤ 1024 * 1024 + maxTerminalLen g := by
  unfold GrammarRust.generate at hgen
  cases hstart : g.start with
  | none =>
    rw [hstart] at hgen
    exact GenResult.noConfusion hgen
  | some s =>
    rw [hstart] at hgen
    exact generateLoop_len_bound fuel g [s] [] g2 st2 buf2 (by simp) (Or.inl hgen)

/-- Claim C1, witness: the bound at a completed concrete call. -/
theorem claim_C1_bounded_output_witness :
    GrammarRust.new rawA = Except.ok gA ∧
    gA.generate 10 [] [] = GenResult.ok gA [] [97] ∧
    ([97] : List Nat).length ≤ 1024 * 1024 + maxTerminalLen gA :=
  ⟨rfl, rfl, claim_C1_bounded_output rawA gA 10 [] gA [] [97] rfl rfl⟩

/-! ## Name-table lemmas -/

/-- Lookup distributes over append: the left part is consulted first. -/
theorem lookupName_append (k : String) : ∀ (t u : List (String × Nat)),
    lookupName k (t ++ u) =
      match lookupName k t with
      | some v => some v
      | none => lookupName k u := by
  intro t u
  induction t with
  | nil => rfl
  | cons p rest ih =>
    obtain ⟨a, b⟩ := p
    by_cases hk : k = a
    · simp [lookupName, hk]
    · simp [lookupName, hk, ih]

/-- A successful lookup names an entry of the table. -/
theorem lookupName_mem : ∀ (t : List (String × Nat)) (k : String) (v : Nat),
    lookupName k t = some v → (k, v) ∈ t := by
  intro t
  induction t with
  | nil => intro k v h; exact Option.noConfusion h
  | cons p rest ih =>
    intro k v h
    obtain ⟨a, b⟩ := p
    by_cases hk : k = a
    · subst hk
      simp [lookupName] at h
      subst h
      exact List.mem_cons_self _ _
    · simp [lookupName, hk] at h
      exact List.mem_cons_of_mem _ (ih k v h)

/-- Lookup fails exactly on keys absent from the table. -/
theorem lookupName_none_iff : ∀ (t : List (String × Nat)) (k : String),
    lookupName k t = none ↔ k ∉ t.map Prod.fst := by
  intro t
  induction t with
  | nil => intro k; simp [lookupName]
  | cons p rest ih =>
    intro k
    obtain ⟨a, b⟩ := p
    by_cases hk : k = a
    · subst hk
      simp [lookupName]
    · simp [lookupName, hk, ih k]

/-- A key present among the table's keys has a successful lookup. -/
theorem lookupName_isSome_of_mem {t : List (String × Nat)} {k : String}
    (h : k ∈ t.map Prod.fst) : ∃ v, lookupName k t = some v := by
  cases hl : lookupName k t with
  | none => exact absurd ((lookupName_none_iff t k).mp hl) (not_not_intro h)
  | some v => exact ⟨v, rfl⟩

/-- Lookup in an appended table is already determined by the left part
when it succeeds there, and in particular a `none` on the appended table
forces a `none` on the left part. -/
theorem lookupName_none_left {t u : List (String × Nat)} {k : String}
    (h : lookupName k (t ++ u) = none) : lookupName k t = none := by
  rw [lookupName_append] at h
  cases hl : lookupName k t with
  | none => rfl
  | some v => rw [hl] at h; exact Option.noConfusion h

/-! ## First pass: shape and failure modes -/

/-- The first pass's keys are exactly the rule names, in order. -/
theorem tabOf_map_fst : ∀ (l : List (String × List (List String))) (n : Nat),
    (tabOf l n).map Prod.fst = l.map Prod.fst := by
  intro l
  induction l with
  | nil => intro n; rfl
  | cons p rest ih => intro n; simp [tabOf, ih]

/-- A successful first pass appends one empty-`NonTerminal` placeholder
per rule and registers each rule name at its placeholder's index. -/
theorem pass1_shape : ∀ (l : List (String × List (List String)))
    (fs : List Fragment) (t : List (String × Nat)) (fs2 : List Fragment)
    (t2 : List (String × Nat)),
    pass1 l fs t = Except.ok (fs2, t2) →
    fs2 = fs ++ List.replicate l.length (Fragment.NonTerminal []) ∧
    t2 = t ++ tabOf l fs.length := by
  intro l
  induction l with
  | nil =>
    intro fs t fs2 t2 h
    simp only [pass1, Except.ok.injEq, Prod.mk.injEq] at h
    simp [tabOf, ← h.1, ← h.2]
  | cons p rest ih =>
    intro fs t fs2 t2 h
    obtain ⟨name, alts⟩ := p
    simp only [pass1] at h
    cases hl : lookupName name t with
    | some v => rw [hl] at h; exact Except.noConfusion h
    | none =>
      rw [hl] at h
      have hr := ih _ _ _ _ h
      refine ⟨?_, ?_⟩
      · rw [hr.1]
        simp [List.replicate_succ, List.append_assoc]
      · rw [hr.2]
        simp [tabOf, List.append_assoc]

/-- A successful first pass implies every processed name was fresh with
respect to the incoming table. -/
theorem pass1_fresh : ∀ (l : List (String × List (List String)))
    (fs : List Fragment) (t : List (String × Nat))
    (r : List Fragment × List (String × Nat)),
    pass1 l fs t = Except.ok r → ∀ p ∈ l, lookupName p.1 t = none := by
  intro l
  induction l with
  | nil => intro fs t r _ p hp; cases hp
  | cons q rest ih =>
    intro fs t r h p hp
    obtain ⟨name, alts⟩ := q
    simp only [pass1] at h
    cases hl : lookupName name t with
    | some v => rw [hl] at h; exact Except.noConfusion h
    | none =>
      rw [hl] at h
      cases hp with
      | head => exact hl
      | tail _ hp =>
        have := ih _ _ _ h p hp
        exact lookupName_none_left this

/-- A successful first pass implies the rule names are pairwise distinct. -/
theorem pass1_nodup : ∀ (l : List (String × List (List String)))
    (fs : List Fragment) (t : List (String × Nat))
    (r : List Fragment × List (String × Nat)),
    pass1 l fs t = Except.ok r → (l.map Prod.fst).Nodup := by
  intro l
  induction l with
  | nil => intro fs t r _; simp
  | cons q rest ih =>
    intro fs t r h
    obtain ⟨name, alts⟩ := q
    simp only [pass1] at h
    cases hl : lookupName name t with
    | some v => rw [hl] at h; exact Except.noConfusion h
    | none =>
      rw [hl] at h
      have hfresh := pass1_fresh _ _ _ _ h
      simp only [List.map_cons, List.nodup_cons]
      refine ⟨?_, ih _ _ _ h⟩
      intro hmem
      obtain ⟨p, hp, hp1⟩ := List.mem_map.mp hmem
      have := hfresh p hp
      rw [hp1] at this
      rw [lookupName_append] at this
      rw [hl] at this
      simp [lookupName] at this

/-- With pairwise-distinct, fresh rule names the first pass succeeds. -/
theorem pass1_ok_of_nodup : ∀ (l : List (String × List (List String)))
    (fs : List Fragment) (t : List (String × Nat)),
    (l.map Prod.fst).Nodup → (∀ p ∈ l, lookupName p.1 t = none) →
    ∃ fs2 t2, pass1 l fs t = Except.ok (fs2, t2) := by
  intro l
  induction l with
  | nil => intro fs t _ _; exact ⟨fs, t, rfl⟩
  | cons q rest ih =>
    intro fs t hnd hfr
    obtain ⟨name, alts⟩ := q
    have hl : lookupName name t = none := hfr (name, alts) (List.mem_cons_self _ _)
    simp only [List.map_cons, List.nodup_cons] at hnd
    have hfr2 : ∀ p ∈ rest, lookupName p.1 (t ++ [(name, fs.length)]) = none := by
      intro p hp
      rw [lookupName_append]
      rw [hfr p (List.mem_cons_of_mem _ hp)]
      have hne : p.1 ≠ name := by
        intro he
        exact hnd.1 (he ▸ List.mem_map_of_mem Prod.fst hp)
      simp [lookupName, hne]
    obtain ⟨fs2, t2, hr⟩ := ih (fs ++ [Fragment.NonTerminal []])
      (t ++ [(name, fs.length)]) hnd.2 hfr2
    exact ⟨fs2, t2, by simp [pass1, hl, hr]⟩

/-- A repeated rule name makes the first pass fail with the
duplicate-rule assertion. -/
theorem pass1_error_of_dup : ∀ (l : List (String × List (List String)))
    (fs : List Fragment) (t : List (String × Nat)),
    (t.map Prod.fst).Nodup → ¬ ((t.map Prod.fst ++ l.map Prod.fst).Nodup) →
    ∃ n, pass1 l fs t = Except.error (CompileError.DuplicateRuleError n) := by
  intro l
  induction l with
  | nil =>
    intro fs t ht hd
    simp only [List.map_nil, List.append_nil] at hd
    exact absurd ht hd
  | cons q rest ih =>
    intro fs t ht hd
    obtain ⟨name, alts⟩ := q
    cases hl : lookupName name t with
    | some v => exact ⟨name, by simp [pass1, hl]⟩
    | none =>
      have hnotin : name ∉ t.map Prod.fst :=
        (lookupName_none_iff t name).mp hl
      have ht2 : ((t ++ [(name, fs.length)]).map Prod.fst).Nodup := by
        simp only [List.map_append, List.map_cons, List.map_nil]
        rw [List.nodup_append]
        exact ⟨ht, List.nodup_singleton _, by simpa [List.disjoint_singleton] using hnotin⟩
      have hd2 : ¬ (((t ++ [(name, fs.length)]).map Prod.fst ++
          rest.map Prod.fst).Nodup) := by
        simp only [List.map_append, List.map_cons, List.map_nil, List.append_assoc,
          List.singleton_append]
        simpa using hd
      obtain ⟨n, hn⟩ := ih (fs ++ [Fragment.NonTerminal []])
        (t ++ [(name, fs.length)]) ht2 hd2
      exact ⟨n, by simp [pass1, hl, hn]⟩

/-! ## Second pass: totality when every rule name resolves -/

/-- The second pass succeeds whenever every remaining rule name is in the
table (its only failure mode is the `BTreeMap` index on a missing key). -/
theorem pass2_ok_of_lookup : ∀ (rem : List (String × List (List String)))
    (fs : List Fragment) (t : List (String × Nat)),
    (∀ p ∈ rem, ∃ i, lookupName p.1 t = some i) →
    ∃ fs2, pass2 t rem fs = Except.ok fs2 := by
  intro rem
  induction rem with
  | nil => intro fs t _; exact ⟨fs, rfl⟩
  | cons q rest ih =>
    intro fs t hlk
    obtain ⟨name, alts⟩ := q
    obtain ⟨i, hi⟩ := hlk (name, alts) (List.mem_cons_self _ _)
    obtain ⟨fs2, hr⟩ := ih
      (((buildExpressions t alts fs).1).set i
        (Fragment.NonTerminal (buildExpressions t alts fs).2)) t
      (fun p hp => hlk p (List.mem_cons_of_mem _ hp))
    exact ⟨fs2, by simp [pass2, hi, hr]⟩

/-! ## Claims about the construction errors -/

/-- Claim C8: for every raw grammar sequence in which a rule name is
repeated, construction fails with the duplicate-rule error and returns no
(partially built) grammar. -/
theorem claim_C8_duplicate_rule (raw : List (String × List (List String)))
    (hdup : ¬ ((raw.map Prod.fst).Nodup)) :
    failsWithDuplicate (GrammarRust.new raw) := by
  obtain ⟨n, hn⟩ := pass1_error_of_dup raw [] [] (by simp) (by simpa using hdup)
  simp [GrammarRust.new, hn, failsWithDuplicate]

/-- Claim C8, witness: the concrete repeated-name input. -/
theorem claim_C8_duplicate_rule_witness :
    ¬ ((rawDup.map Prod.fst).Nodup) ∧ failsWithDuplicate (GrammarRust.new rawDup) :=
  ⟨by decide, claim_C8_duplicate_rule rawDup (by decide)⟩

/-- Claim C7: a raw grammar mapping (pairwise-distinct rule names, as a
map's keys are) that contains no rule named `<start>` makes construction
fail with the missing-start error and return no compiled grammar. -/
theorem claim_C7_missing_start (raw : List (String × List (List String)))
    (hnodup : (raw.map Prod.fst).Nodup)
    (hstart : "<start>" ∉ raw.map Prod.fst) :
    GrammarRust.new raw = Except.error CompileError.MissingStartRuleError := by
  obtain ⟨fs2, t2, h1⟩ := pass1_ok_of_nodup raw [] [] hnodup (fun p _ => rfl)
  have hshape := pass1_shape raw [] [] fs2 t2 h1
  have hkeys : t2.map Prod.fst = raw.map Prod.fst := by
    rw [hshape.2]
    simp [tabOf_map_fst]
  have hlk : ∀ p ∈ raw, ∃ i, lookupName p.1 t2 = some i := by
    intro p hp
    apply lookupName_isSome_of_mem
    rw [hkeys]
    exact List.mem_map_of_mem Prod.fst hp
  obtain ⟨fs3, h2⟩ := pass2_ok_of_lookup raw fs2 t2 hlk
  have hs : lookupName "<start>" t2 = none := by
    rw [lookupName_none_iff, hkeys]
    exact hstart
  simp [GrammarRust.new, h1, h2, hs]

/-- Claim C7, witness: the concrete grammar lacking a start rule. -/
theorem claim_C7_missing_start_witness :
    (rawNoStart.map Prod.fst).Nodup ∧ "<start>" ∉ rawNoStart.map Prod.fst ∧
    GrammarRust.new rawNoStart = Except.error CompileError.MissingStartRuleError :=
  ⟨by decide, by decide, claim_C7_missing_start rawNoStart (by decide) (by decide)⟩

/-! ## Counterexamples: a rule with no alternatives defeats C4 and C5 -/

/-- Claim C4, counterexample: the grammar whose start rule has zero
alternatives compiles successfully, yet `generate` panics on it — the
`rand() % children.len()` in the `NonTerminal` branch divides by zero, so
generation is not total on every successfully compiled grammar. -/
theorem claim_C4_counterexample :
    GrammarRust.new rawEmptyAlts = Except.ok gEmptyAlts ∧
    gEmptyAlts.generate 5 [] [] = GenResult.panic :=
  ⟨rfl, rfl⟩

/-- Claim C5, counterexample: for the same zero-alternative input the
final compiled arena contains a `NonTerminal` with an empty children
list — the first-pass placeholder content survives compilation. -/
theorem claim_C5_counterexample :
    GrammarRust.new rawEmptyAlts = Except.ok gEmptyAlts ∧
    Fragment.NonTerminal [] ∈ gEmptyAlts.fragments :=
  ⟨rfl, by decide⟩

/-! ## Arena-growth lemmas for the second pass -/

/-- A position holding a value is inside the list. -/
theorem getElem?_some_lt {α : Type} {l : List α} {j : Nat} {a : α}
    (h : l[j]? = some a) : j < l.length := by
  by_contra hlt
  rw [List.getElem?_eq_none (Nat.le_of_not_lt hlt)] at h
  exact Option.noConfusion h

/-- Values survive appends on the right. -/
theorem getElem?_append_some {α : Type} {l u : List α} {j : Nat} {a : α}
    (h : l[j]? = some a) : (l ++ u)[j]? = some a := by
  rw [List.getElem?_append_left (getElem?_some_lt h)]
  exact h

/-- Values survive into any extension of the list. -/
theorem getElem?_extend_of_pre {α : Type} {l1 l2 : List α} (h : l1 <+: l2)
    {j : Nat} {a : α} (hj : l1[j]? = some a) : l2[j]? = some a := by
  obtain ⟨u, rfl⟩ := h
  exact getElem?_append_some hj

/-- The inner option loop only appends fragments. -/
theorem buildOptions_grows (t : List (String × Nat)) :
    ∀ (l : List String) (fs : List Fragment), fs <+: (buildOptions t l fs).1 := by
  intro l
  induction l with
  | nil => intro fs; exact List.prefix_rfl
  | cons option rest ih =>
    intro fs
    cases hl : lookupName option t with
    | some v =>
      simp only [buildOptions, hl]
      exact (List.prefix_append fs _).trans (ih _)
    | none =>
      simp only [buildOptions, hl]
      exact (List.prefix_append fs _).trans (ih _)

/-- The inner option loop appends one fragment per symbol. -/
theorem buildOptions_length (t : List (String × Nat)) :
    ∀ (l : List String) (fs : List Fragment),
    (buildOptions t l fs).1.length = fs.length + l.length := by
  intro l
  induction l with
  | nil => intro fs; rfl
  | cons option rest ih =>
    intro fs
    cases hl : lookupName option t with
    | some v =>
      simp only [buildOptions, hl, ih]
      simp [List.length_append]
      omega
    | none =>
      simp only [buildOptions, hl, ih]
      simp [List.length_append]
      omega

/-- Every option id is freshly allocated: at or past the incoming arena
length, inside the outgoing arena. -/
theorem buildOptions_ids (t : List (String × Nat)) :
    ∀ (l : List String) (fs : List Fragment), ∀ id ∈ (buildOptions t l fs).2,
    fs.length ≤ id ∧ id < (buildOptions t l fs).1.length := by
  intro l
  induction l with
  | nil => intro fs id h; cases h
  | cons option rest ih =>
    intro fs id h
    cases hl : lookupName option t with
    | some v =>
      simp only [buildOptions, hl] at h ⊢
      cases h with
      | head =>
        refine ⟨Nat.le_refl _, ?_⟩
        rw [buildOptions_length]
        simp only [List.length_append, List.length_cons, List.length_nil]
        omega
      | tail _ h =>
        have hr := ih _ id h
        refine ⟨?_, hr.2⟩
        have := hr.1
        simp [List.length_append] at this
        omega
    | none =>
      simp only [buildOptions, hl] at h ⊢
      cases h with
      | head =>
        refine ⟨Nat.le_refl _, ?_⟩
        rw [buildOptions_length]
        simp only [List.length_append, List.length_cons, List.length_nil]
        omega
      | tail _ h =>
        have hr := ih _ id h
        refine ⟨?_, hr.2⟩
        have := hr.1
        simp [List.length_append] at this
        omega

/-- Every fragment the inner option loop appends is a single-child
`NonTerminal` wrapper around a table entry or a `Terminal`. -/
theorem buildOptions_new (t : List (String × Nat)) :
    ∀ (l : List String) (fs : List Fragment) (j : Nat) (f : Fragment),
    fs.length ≤ j → (buildOptions t l fs).1[j]? = some f →
    (∃ v, f = Fragment.NonTerminal [v] ∧ ∃ k, lookupName k t = some v) ∨
    (∃ b, f = Fragment.Terminal b) := by
  intro l
  induction l with
  | nil =>
    intro fs j f hj hget
    simp only [buildOptions] at hget
    rw [List.getElem?_eq_none hj] at hget
    exact Option.noConfusion hget
  | cons option rest ih =>
    intro fs j f hj hget
    cases hl : lookupName option t with
    | some v =>
      simp only [buildOptions, hl] at hget
      by_cases hj2 : (fs ++ [Fragment.NonTerminal [v]]).length ≤ j
      · exact ih _ j f hj2 hget
      · have hje : j = fs.length := by
          simp [List.length_append] at hj2
          omega
        subst hje
        have hx := getElem?_extend_of_pre
          (buildOptions_grows t rest (fs ++ [Fragment.NonTerminal [v]]))
          (List.getElem?_concat_length fs (Fragment.NonTerminal [v]))
        have hfx : f = Fragment.NonTerminal [v] :=
          Option.some.inj (hget.symm.trans hx)
        exact Or.inl ⟨v, hfx, option, hl⟩
    | none =>
      simp only [buildOptions, hl] at hget
      by_cases hj2 : (fs ++ [Fragment.Terminal (strBytes option)]).length ≤ j
      · exact ih _ j f hj2 hget
      · have hje : j = fs.length := by
          simp [List.length_append] at hj2
          omega
        subst hje
        have hx := getElem?_extend_of_pre
          (buildOptions_grows t rest (fs ++ [Fragment.Terminal (strBytes option)]))
          (List.getElem?_concat_length fs (Fragment.Terminal (strBytes option)))
        have hfx : f = Fragment.Terminal (strBytes option) :=
          Option.some.inj (hget.symm.trans hx)
        exact Or.inr ⟨strBytes option, hfx⟩

/-- The middle alternatives loop only appends fragments. -/
theorem buildExpressions_grows (t : List (String × Nat)) :
    ∀ (alts : List (List String)) (fs : List Fragment),
    fs <+: (buildExpressions t alts fs).1 := by
  intro alts
  induction alts with
  | nil => intro fs; exact List.prefix_rfl
  | cons alt rest ih =>
    intro fs
    simp only [buildExpressions]
    exact ((buildOptions_grows t alt fs).trans
      (List.prefix_append _ _)).trans (ih _)

/-- One expression id per alternative. -/
theorem buildExpressions_count (t : List (String × Nat)) :
    ∀ (alts : List (List String)) (fs : List Fragment),
    (buildExpressions t alts fs).2.length = alts.length := by
  intro alts
  induction alts with
  | nil => intro fs; rfl
  | cons alt rest ih =>
    intro fs
    simp only [buildExpressions, List.length_cons, ih]

/-- Every expression id is freshly allocated and holds an `Expression`
fragment in the outgoing arena. -/
theorem buildExpressions_ids (t : List (String × Nat)) :
    ∀ (alts : List (List String)) (fs : List Fragment),
    ∀ id ∈ (buildExpressions t alts fs).2,
    fs.length ≤ id ∧ id < (buildExpressions t alts fs).1.length ∧
      ∃ opts, (buildExpressions t alts fs).1[id]? = some (Fragment.Expression opts) := by
  intro alts
  induction alts with
  | nil => intro fs id h; cases h
  | cons alt rest ih =>
    intro fs id h
    simp only [buildExpressions] at h ⊢
    cases h with
    | head =>
      have hfo : fs.length ≤ (buildOptions t alt fs).1.length :=
        (buildOptions_grows t alt fs).length_le
      have hlt : (buildOptions t alt fs).1.length <
          ((buildOptions t alt fs).1 ++
            [Fragment.Expression (buildOptions t alt fs).2]).length := by
        simp
      have hr := (buildExpressions_grows t rest
        ((buildOptions t alt fs).1 ++
          [Fragment.Expression (buildOptions t alt fs).2])).length_le
      refine ⟨hfo, by omega, ?_⟩
      refine ⟨(buildOptions t alt fs).2, ?_⟩
      exact getElem?_extend_of_pre
        (buildExpressions_grows t rest _)
        (List.getElem?_concat_length _ _)
    | tail _ h =>
      have hr := ih _ id h
      have hfo : fs.length ≤ (buildOptions t alt fs).1.length :=
        (buildOptions_grows t alt fs).length_le
      have h1 := hr.1
      simp only [List.length_append, List.length_cons, List.length_nil] at h1
      exact ⟨by omega, hr.2.1, hr.2.2⟩

/-- Every fragment the alternatives loop appends is a wrapper
`NonTerminal` around a table entry, a `Terminal`, or an `Expression`
whose children stay inside the outgoing arena. -/
theorem buildExpressions_new (t : List (String × Nat)) :
    ∀ (alts : List (List String)) (fs : List Fragment) (j : Nat) (f : Fragment),
    fs.length ≤ j → (buildExpressions t alts fs).1[j]? = some f →
    (∃ v, f = Fragment.NonTerminal [v] ∧ ∃ k, lookupName k t = some v) ∨
    (∃ b, f = Fragment.Terminal b) ∨
    (∃ opts, f = Fragment.Expression opts ∧
      ∀ c ∈ opts, c < (buildExpressions t alts fs).1.length) := by
  intro alts
  induction alts with
  | nil =>
    intro fs j f hj hget
    simp only [buildExpressions] at hget
    rw [List.getElem?_eq_none hj] at hget
    exact Option.noConfusion hget
  | cons alt rest ih =>
    intro fs j f hj hget
    simp only [buildExpressions] at hget ⊢
    by_cases hj3 : ((buildOptions t alt fs).1 ++
        [Fragment.Expression (buildOptions t alt fs).2]).length ≤ j
    · exact ih _ j f hj3 hget
    · by_cases hjo : (buildOptions t alt fs).1.length ≤ j
      · have hje : j = (buildOptions t alt fs).1.length := by
          simp only [List.length_append, List.length_cons, List.length_nil] at hj3
          omega
        subst hje
        have hx := getElem?_extend_of_pre
          (buildExpressions_grows t rest _)
          (List.getElem?_concat_length (buildOptions t alt fs).1
            (Fragment.Expression (buildOptions t alt fs).2))
        have hfx : f = Fragment.Expression (buildOptions t alt fs).2 :=
          Option.some.inj (hget.symm.trans hx)
        refine Or.inr (Or.inr ⟨(buildOptions t alt fs).2, hfx, ?_⟩)
        intro c hc
        have hb := (buildOptions_ids t alt fs c hc).2
        have hr := (buildExpressions_grows t rest
          ((buildOptions t alt fs).1 ++
            [Fragment.Expression (buildOptions t alt fs).2])).length_le
        simp only [List.length_append, List.length_cons, List.length_nil] at hr
        omega
      · have hlt : j < (buildOptions t alt fs).1.length := Nat.lt_of_not_le hjo
        have hfo : (buildOptions t alt fs).1[j]? = some ((buildOptions t alt fs).1[j]) :=
          List.getElem?_eq_getElem hlt
        have hup : (buildExpressions t rest
            ((buildOptions t alt fs).1 ++
              [Fragment.Expression (buildOptions t alt fs).2])).1[j]? =
            some ((buildOptions t alt fs).1[j]) :=
          getElem?_extend_of_pre (buildExpressions_grows t rest _)
            (getElem?_append_some hfo)
        have hfx : f = (buildOptions t alt fs).1[j] :=
          Option.some.inj (hget.symm.trans hup)
        subst hfx
        rcases buildOptions_new t alt fs j _ hj hfo with h | h
        · exact Or.inl h
        · exact Or.inr (Or.inl h)

/-- Positions of a prefix read the same through the extension. -/
theorem prefix_getElem?_eq {α : Type} {l1 l2 : List α} (h : l1 <+: l2) {j : Nat}
    (hj : j < l1.length) : l2[j]? = l1[j]? := by
  obtain ⟨u, rfl⟩ := h
  exact List.getElem?_append_left hj

/-- The second pass establishes and preserves the arena invariant: it
succeeds, the final arena satisfies the invariant with no rule pending,
positions not owned by a pending rule are untouched, and each processed
rule's placeholder ends up as a `NonTerminal` with one freshly allocated
`Expression` child per alternative. -/
theorem pass2_preserves (t : List (String × Nat)) (N : Nat)
    (raw : List (String × List (List String)))
    (ht : ∀ k i, lookupName k t = some i → i < N)
    (hinj : ∀ a b i, lookupName a t = some i → lookupName b t = some i → a = b) :
    ∀ (rem : List (String × List (List String))) (fs : List Fragment),
    (rem.map Prod.fst).Nodup →
    (∀ p ∈ rem, p ∈ raw) →
    Pass2Inv t N raw rem fs →
    ∃ fs2, pass2 t rem fs = Except.ok fs2 ∧
      Pass2Inv t N raw [] fs2 ∧
      fs.length ≤ fs2.length ∧
      (∀ j, j < fs.length →
        (∀ p ∈ rem, ∀ i, lookupName p.1 t = some i → i ≠ j) →
        fs2[j]? = fs[j]?) ∧
      (∀ p ∈ rem, ∀ i, lookupName p.1 t = some i →
        ∃ ch, fs2[i]? = some (Fragment.NonTerminal ch) ∧
          ch.length = p.2.length ∧
          ∀ e ∈ ch, N ≤ e ∧
            ∃ opts, fs2[e]? = some (Fragment.Expression opts)) := by
  intro rem
  induction rem with
  | nil =>
    intro fs _ _ hinv
    exact ⟨fs, rfl, hinv, Nat.le_refl _, fun j _ _ => rfl,
      fun p hp => absurd hp (List.not_mem_nil p)⟩
  | cons p rem' ih =>
    intro fs hnd hsub hinv
    obtain ⟨name, alts⟩ := p
    obtain ⟨i0, hi0, hplace⟩ := hinv.pending (name, alts) (List.mem_cons_self _ _)
    have hi0N : i0 < N := ht name i0 hi0
    have hi0fs : i0 < fs.length := getElem?_some_lt hplace
    have hnotin : name ∉ rem'.map Prod.fst ∧ (rem'.map Prod.fst).Nodup := by
      simpa [List.nodup_cons] using hnd
    have hpre : fs <+: (buildExpressions t alts fs).1 :=
      buildExpressions_grows t alts fs
    have hE1len : fs.length ≤ (buildExpressions t alts fs).1.length :=
      hpre.length_le
    have hi0E1 : i0 < (buildExpressions t alts fs).1.length :=
      Nat.lt_of_lt_of_le hi0fs hE1len
    have hfs3len : ((buildExpressions t alts fs).1.set i0
        (Fragment.NonTerminal (buildExpressions t alts fs).2)).length =
        (buildExpressions t alts fs).1.length := by simp
    have hremne : ∀ q ∈ rem', ∀ iq, lookupName q.1 t = some iq → iq ≠ i0 := by
      intro q hq iq hiq heq
      have hqname : q.1 = name := hinj q.1 name i0 (heq ▸ hiq) hi0
      exact hnotin.1 (hqname ▸ List.mem_map_of_mem Prod.fst hq)
    have hset0 : ((buildExpressions t alts fs).1.set i0
        (Fragment.NonTerminal (buildExpressions t alts fs).2))[i0]? =
        some (Fragment.NonTerminal (buildExpressions t alts fs).2) :=
      List.getElem?_set_self hi0E1
    have hsetne : ∀ j, j ≠ i0 →
        ((buildExpressions t alts fs).1.set i0
          (Fragment.NonTerminal (buildExpressions t alts fs).2))[j]? =
        (buildExpressions t alts fs).1[j]? := by
      intro j hj
      rw [List.getElem?_set_ne (Ne.symm hj)]
    have holdE1 : ∀ j, j < fs.length →
        (buildExpressions t alts fs).1[j]? = fs[j]? :=
      fun j hj => prefix_getElem?_eq hpre hj
    -- the invariant after processing this rule
    have hinv3 : Pass2Inv t N raw rem'
        ((buildExpressions t alts fs).1.set i0
          (Fragment.NonTerminal (buildExpressions t alts fs).2)) := by
      refine ⟨?_, ?_, ?_, ?_⟩
      · rw [hfs3len]
        exact Nat.le_trans hinv.hlen hE1len
      · -- closed
        intro f hf c hc
        rw [hfs3len]
        rcases List.mem_or_eq_of_mem_set hf with hfE | hfeq
        · obtain ⟨j, hj⟩ := List.mem_iff_getElem?.mp hfE
          by_cases hjfs : j < fs.length
          · have : fs[j]? = some f := (holdE1 j hjfs).symm.trans hj
            exact Nat.lt_of_lt_of_le
              (hinv.closed f (List.getElem?_mem this) c hc) hE1len
          · rcases buildExpressions_new t alts fs j f
                (Nat.le_of_not_lt hjfs) hj with ⟨v, hfv, k, hk⟩ | ⟨b, hfb⟩ |
                ⟨opts, hfo, hbound⟩
            · subst hfv
              simp only [Fragment.children] at hc
              have hcv : c = v := List.mem_singleton.mp hc
              subst hcv
              exact Nat.lt_of_lt_of_le (Nat.lt_of_lt_of_le (ht k c hk)
                hinv.hlen) hE1len
            · subst hfb
              cases hc
            · subst hfo
              exact hbound c hc
        · subst hfeq
          simp only [Fragment.children] at hc
          exact ((buildExpressions_ids t alts fs c hc).2).1
      · -- pending for the remaining rules
        intro q hq
        obtain ⟨iq, hiq, hplq⟩ := hinv.pending q (List.mem_cons_of_mem _ hq)
        refine ⟨iq, hiq, ?_⟩
        rw [hsetne iq (hremne q hq iq hiq)]
        rw [holdE1 iq (getElem?_some_lt hplq)]
        exact hplq
      · -- classification of NonTerminals
        intro i ch hch
        by_cases hii : i = i0
        · rw [hii] at hch ⊢
          have hch2 : ch = (buildExpressions t alts fs).2 := by
            have h2 := Option.some.inj (hch.symm.trans hset0)
            exact Fragment.NonTerminal.inj h2
          subst hch2
          refine Or.inr (Or.inl ⟨name, alts,
            hsub (name, alts) (List.mem_cons_self _ _), hi0,
            buildExpressions_count t alts fs, ?_⟩)
          intro e he
          have hids := buildExpressions_ids t alts fs e he
          obtain ⟨opts, hopts⟩ := hids.2.2
          refine ⟨Nat.le_trans hinv.hlen hids.1, opts, ?_⟩
          have hene : e ≠ i0 := by
            have := hids.1
            omega
          rw [hsetne e hene]
          exact hopts
        · rw [hsetne i hii] at hch
          by_cases hifs : i < fs.length
          · have hchfs : fs[i]? = some (Fragment.NonTerminal ch) :=
              (holdE1 i hifs).symm.trans hch
            rcases hinv.ntShape i ch hchfs with ⟨hche, q, hq, hlkq⟩ |
                ⟨name2, alts2, h1, h2, h3, h4⟩ | h1
            · rcases List.mem_cons.mp hq with hqh | hqt
              · exfalso
                subst hqh
                exact hii (Option.some.inj (hlkq.symm.trans hi0))
              · exact Or.inl ⟨hche, q, hqt, hlkq⟩
            · refine Or.inr (Or.inl ⟨name2, alts2, h1, h2, h3, ?_⟩)
              intro e he
              obtain ⟨heN, opts, hopts⟩ := h4 e he
              refine ⟨heN, opts, ?_⟩
              have hene : e ≠ i0 := by omega
              rw [hsetne e hene]
              rw [holdE1 e (getElem?_some_lt hopts)]
              exact hopts
            · exact Or.inr (Or.inr h1)
          · rcases buildExpressions_new t alts fs i _
                (Nat.le_of_not_lt hifs) hch with ⟨v, hfv, k, hk⟩ | ⟨b, hfb⟩ |
                ⟨opts, hfo, hbound⟩
            · refine Or.inr (Or.inr ?_)
              rw [Fragment.NonTerminal.inj hfv]
              rfl
            · exact Fragment.noConfusion hfb
            · exact Fragment.noConfusion hfo
    obtain ⟨fs2, hok2, hinvF, hlen2, hpres2, hper2⟩ :=
      ih ((buildExpressions t alts fs).1.set i0
        (Fragment.NonTerminal (buildExpressions t alts fs).2))
        hnotin.2 (fun q hq => hsub q (List.mem_cons_of_mem _ hq)) hinv3
    have hremlt : ∀ q ∈ rem', ∀ iq, lookupName q.1 t = some iq →
        iq < (buildExpressions t alts fs).1.length :=
      fun q _ iq hiq =>
        Nat.lt_of_lt_of_le (Nat.lt_of_lt_of_le (ht q.1 iq hiq) hinv.hlen) hE1len
    refine ⟨fs2, ?_, hinvF, ?_, ?_, ?_⟩
    · simp only [pass2, hi0]
      exact hok2
    · rw [hfs3len] at hlen2
      exact Nat.le_trans hE1len hlen2
    · -- untouched positions
      intro j hj hnone
      have hji0 : i0 ≠ j := hnone (name, alts) (List.mem_cons_self _ _) i0 hi0
      have h1 : fs2[j]? = ((buildExpressions t alts fs).1.set i0
          (Fragment.NonTerminal (buildExpressions t alts fs).2))[j]? := by
        apply hpres2 j
        · rw [hfs3len]
          exact Nat.lt_of_lt_of_le hj hE1len
        · intro q hq iq hiq
          exact hnone q (List.mem_cons_of_mem _ hq) iq hiq
      rw [h1, hsetne j (fun he => hji0 he.symm), holdE1 j hj]
    · -- per-rule structure
      intro q hq i hlkq
      rcases List.mem_cons.mp hq with hqh | hqt
      · subst hqh
        have hieq : i = i0 := Option.some.inj (hlkq.symm.trans hi0)
        rw [hieq]
        have h1 : fs2[i0]? = some
            (Fragment.NonTerminal (buildExpressions t alts fs).2) := by
          have h0 := hpres2 i0 (by rw [hfs3len]; exact hi0E1)
            (fun q2 hq2 iq hiq => hremne q2 hq2 iq hiq)
          rw [h0, hset0]
        refine ⟨(buildExpressions t alts fs).2, h1,
          buildExpressions_count t alts fs, ?_⟩
        intro e he
        have hids := buildExpressions_ids t alts fs e he
        obtain ⟨opts, hopts⟩ := hids.2.2
        refine ⟨Nat.le_trans hinv.hlen hids.1, opts, ?_⟩
        have heN : N ≤ e := Nat.le_trans hinv.hlen hids.1
        have h2 : fs2[e]? = ((buildExpressions t alts fs).1.set i0
            (Fragment.NonTerminal (buildExpressions t alts fs).2))[e]? := by
          apply hpres2 e
          · rw [hfs3len]
            exact hids.2.1
          · intro q2 hq2 iq hiq heq
            have : iq < N := ht q2.1 iq hiq
            omega
        have hene : e ≠ i0 := by
          have := hids.1
          omega
        rw [h2, hsetne e hene]
        exact hopts
      · exact hper2 q hqt i hlkq

/-! ## Properties of the first-pass name table -/

/-- Table values are the placeholder indices, within the allocated range. -/
theorem tabOf_lookup_lt : ∀ (l : List (String × List (List String))) (n : Nat)
    (k : String) (i : Nat), lookupName k (tabOf l n) = some i →
    n ≤ i ∧ i < n + l.length := by
  intro l
  induction l with
  | nil => intro n k i h; exact Option.noConfusion h
  | cons p rest ih =>
    intro n k i h
    simp only [tabOf, lookupName] at h
    by_cases hk : k = p.1
    · rw [if_pos hk] at h
      have he : n = i := Option.some.inj h
      subst he
      simp only [List.length_cons]
      omega
    · rw [if_neg hk] at h
      have := ih (n + 1) k i h
      simp only [List.length_cons]
      omega

/-- Distinct placeholder indices: the table maps at most one name to each
fragment id. -/
theorem tabOf_inj : ∀ (l : List (String × List (List String))) (n : Nat)
    (a b : String) (i : Nat), lookupName a (tabOf l n) = some i →
    lookupName b (tabOf l n) = some i → a = b := by
  intro l
  induction l with
  | nil => intro n a b i ha _; exact Option.noConfusion ha
  | cons p rest ih =>
    intro n a b i ha hb
    simp only [tabOf, lookupName] at ha hb
    by_cases hak : a = p.1
    · rw [if_pos hak] at ha
      by_cases hbk : b = p.1
      · exact hak.trans hbk.symm
      · rw [if_neg hbk] at hb
        have hlt := tabOf_lookup_lt rest (n + 1) b i hb
        have he : n = i := Option.some.inj ha
        omega
    · rw [if_neg hak] at ha
      by_cases hbk : b = p.1
      · rw [if_pos hbk] at hb
        have hlt := tabOf_lookup_lt rest (n + 1) a i ha
        have he : n = i := Option.some.inj hb
        omega
      · rw [if_neg hbk] at hb
        exact ih (n + 1) a b i ha hb

/-- With distinct rule names, every placeholder index is owned by a rule. -/
theorem tabOf_surj : ∀ (l : List (String × List (List String))) (n : Nat),
    (l.map Prod.fst).Nodup → ∀ i, n ≤ i → i < n + l.length →
    ∃ p ∈ l, lookupName p.1 (tabOf l n) = some i := by
  intro l
  induction l with
  | nil => intro n _ i h1 h2; simp at h2; omega
  | cons p rest ih =>
    intro n hnd i h1 h2
    have hnd2 : p.1 ∉ rest.map Prod.fst ∧ (rest.map Prod.fst).Nodup := by
      simpa [List.nodup_cons] using hnd
    by_cases hi : i = n
    · subst hi
      refine ⟨p, List.mem_cons_self _ _, ?_⟩
      simp [tabOf, lookupName]
    · have h3 : n + 1 ≤ i := by omega
      have h4 : i < (n + 1) + rest.length := by
        simp only [List.length_cons] at h2
        omega
      obtain ⟨q, hq, hlk⟩ := ih (n + 1) hnd2.2 i h3 h4
      refine ⟨q, List.mem_cons_of_mem _ hq, ?_⟩
      have hne : q.1 ≠ p.1 := by
        intro he
        exact hnd2.1 (he ▸ List.mem_map_of_mem Prod.fst hq)
      simp only [tabOf, lookupName, if_neg hne]
      exact hlk

/-! ## The compiled grammar satisfies the arena invariant -/

/-- Full description of a successfully compiled grammar: its name table
is the first-pass table, its arena satisfies the invariant with nothing
pending, its start id is the table's `<start>` entry, and each rule's
placeholder holds one freshly allocated `Expression` child per
alternative. -/
theorem new_inv (raw : List (String × List (List String))) (g : GrammarRust)
    (hok : GrammarRust.new raw = Except.ok g) :
    g.name_to_fragment = tabOf raw 0 ∧
    Pass2Inv (tabOf raw 0) raw.length raw [] g.fragments ∧
    (∃ s, g.start = some s ∧ lookupName "<start>" (tabOf raw 0) = some s) ∧
    (∀ p ∈ raw, ∀ i, lookupName p.1 (tabOf raw 0) = some i →
      ∃ ch, g.fragments[i]? = some (Fragment.NonTerminal ch) ∧
        ch.length = p.2.length ∧
        ∀ e ∈ ch, raw.length ≤ e ∧
          ∃ opts, g.fragments[e]? = some (Fragment.Expression opts)) := by
  unfold GrammarRust.new at hok
  split at hok
  next e heq => exact Except.noConfusion hok
  next fs1 t1 hp1 =>
    split at hok
    next e2 hp2 => exact Except.noConfusion hok
    next fs2 hp2 =>
      split at hok
      next hs => exact Except.noConfusion hok
      next s hs =>
        have hg : g = GrammarRust.mk fs2 (some s) t1 0 :=
          (Except.ok.inj hok).symm
        subst hg
        have hshape := pass1_shape raw [] [] fs1 t1 hp1
        have hfs1 : fs1 = List.replicate raw.length (Fragment.NonTerminal []) := by
          simpa using hshape.1
        have ht1 : t1 = tabOf raw 0 := by simpa using hshape.2
        subst hfs1
        subst ht1
        have hnd := pass1_nodup raw [] [] _ hp1
        have hub : ∀ k i, lookupName k (tabOf raw 0) = some i → i < raw.length := by
          intro k i h
          have := tabOf_lookup_lt raw 0 k i h
          omega
        have hinv0 : Pass2Inv (tabOf raw 0) raw.length raw raw
            (List.replicate raw.length (Fragment.NonTerminal [])) := by
          refine ⟨?_, ?_, ?_, ?_⟩
          · simp
          · intro f hf c hc
            have := List.eq_of_mem_replicate hf
            subst this
            cases hc
          · intro p hp
            have hkey : p.1 ∈ (tabOf raw 0).map Prod.fst := by
              rw [tabOf_map_fst]
              exact List.mem_map_of_mem Prod.fst hp
            obtain ⟨i, hi⟩ := lookupName_isSome_of_mem hkey
            refine ⟨i, hi, ?_⟩
            rw [List.getElem?_replicate, if_pos (hub p.1 i hi)]
          · intro i ch hch
            rw [List.getElem?_replicate] at hch
            by_cases hilt : i < raw.length
            · rw [if_pos hilt] at hch
              have hche : ch = [] :=
                (Fragment.NonTerminal.inj (Option.some.inj hch)).symm
              obtain ⟨p, hp, hlk⟩ := tabOf_surj raw 0 hnd i (Nat.zero_le i)
                (by omega)
              exact Or.inl ⟨hche, p, hp, hlk⟩
            · rw [if_neg hilt] at hch
              exact Option.noConfusion hch
        obtain ⟨fs2b, hok2, hinvF, _, _, hper⟩ := pass2_preserves
          (tabOf raw 0) raw.length raw hub (tabOf_inj raw 0) raw
          (List.replicate raw.length (Fragment.NonTerminal []))
          hnd (fun p hp => hp) hinv0
        rw [hp2] at hok2
        have hfe : fs2b = fs2 := (Except.ok.inj hok2).symm
        subst hfe
        exact ⟨rfl, hinvF, ⟨s, rfl, hs⟩, hper⟩

/-- A grammar compiled from a raw grammar in which every rule has at
least one alternative is well-formed. -/
theorem new_WF (raw : List (String × List (List String))) (g : GrammarRust)
    (hok : GrammarRust.new raw = Except.ok g)
    (halts : ∀ p ∈ raw, p.2 ≠ []) : GrammarWF g := by
  obtain ⟨htab, hinv, ⟨s, hstart, hslk⟩, hper⟩ := new_inv raw g hok
  constructor
  · refine ⟨s, hstart, ?_⟩
    have h1 := tabOf_lookup_lt raw 0 _ s hslk
    have h2 := hinv.hlen
    omega
  · intro f hf
    cases f with
    | NonTerminal ch =>
      simp only [FragWF]
      obtain ⟨i, hi⟩ := List.mem_iff_getElem?.mp hf
      constructor
      · intro hche
        subst hche
        rcases hinv.ntShape i [] hi with ⟨_, p, hp, _⟩ |
            ⟨n2, a2, h1, _, h3, _⟩ | h1
        · exact List.not_mem_nil p hp
        · exact halts (n2, a2) h1 (List.length_eq_zero.mp h3.symm)
        · exact absurd h1 (by decide)
      · intro c hc
        exact hinv.closed _ hf c hc
    | Expression ch =>
      simp only [FragWF]
      intro c hc
      exact hinv.closed _ hf c hc
    | Terminal v => trivial

/-- The loop never panics on a well-formed arena with an in-bounds stack:
no `% 0`, no out-of-bounds fragment id. -/
theorem generateLoop_no_panic :
    ∀ (fuel : Nat) (g : GrammarRust) (stack buf : List Nat),
    (∀ f ∈ g.fragments, FragWF g.fragments.length f) →
    (∀ i ∈ stack, i < g.fragments.length) →
    generateLoop fuel g stack buf ≠ GenResult.panic := by
  intro fuel
  induction fuel with
  | zero => intro g stack buf _ _ h; exact GenResult.noConfusion h
  | succ n ih =>
    intro g stack buf hWF hstack h
    cases stack with
    | nil => exact GenResult.noConfusion h
    | cons cur rest =>
      have hcur : cur < g.fragments.length := hstack cur (List.mem_cons_self _ _)
      have hget : g.fragments[cur]? = some g.fragments[cur] :=
        List.getElem?_eq_getElem hcur
      cases hf : g.fragments[cur] with
      | NonTerminal options =>
        rw [hf] at hget
        rw [generateLoop_nt hget] at h
        have hWFf := hWF _ (List.getElem?_mem hget)
        simp only [FragWF] at hWFf
        have hlen0 : ¬ options.length = 0 := by
          intro h0
          exact hWFf.1 (List.length_eq_zero.mp h0)
        rw [if_neg hlen0] at h
        have hidx : rand64 g.seed % options.length < options.length :=
          Nat.mod_lt _ (Nat.pos_of_ne_zero hlen0)
        rw [List.getElem?_eq_getElem hidx] at h
        have hbnd : ∀ i ∈ options[rand64 g.seed % options.length] :: rest,
            i < g.fragments.length := by
          intro i hi
          rcases List.mem_cons.mp hi with hie | hi
          · rw [hie]
            exact hWFf.2 _ (List.getElem_mem hidx)
          · exact hstack i (List.mem_cons_of_mem _ hi)
        exact ih { g with seed := rand64 g.seed }
          (options[rand64 g.seed % options.length] :: rest) buf hWF hbnd h
      | Expression expr =>
        rw [hf] at hget
        rw [generateLoop_expr hget] at h
        have hWFf := hWF _ (List.getElem?_mem hget)
        simp only [FragWF] at hWFf
        have hbnd : ∀ i ∈ expr ++ rest, i < g.fragments.length := by
          intro i hi
          rcases List.mem_append.mp hi with hi | hi
          · exact hWFf i hi
          · exact hstack i (List.mem_cons_of_mem _ hi)
        exact ih g (expr ++ rest) buf hWF hbnd h
      | Terminal value =>
        rw [hf] at hget
        by_cases hlen : 1024 * 1024 < (buf ++ value).length
        · rw [generateLoop_term_break hget hlen] at h
          exact GenResult.noConfusion h
        · rw [generateLoop_term_cont hget hlen] at h
          exact ih _ _ _ hWF
            (fun i hi => hstack i (List.mem_cons_of_mem _ hi)) h

/-- Claim C4, amended: for a grammar successfully compiled from a raw
grammar in which every rule has at least one alternative, `generate` is
total — it never panics: the `rand % children.len()` never divides by
zero, every popped fragment id is in bounds, and the start id is cached.
(As stated over all compiled grammars the claim is false: a rule with an
empty alternatives list compiles and panics, see the counterexample.) -/
theorem claim_C4_amended_generate_total
    (raw : List (String × List (List String))) (g : GrammarRust)
    (hok : GrammarRust.new raw = Except.ok g)
    (halts : ∀ p ∈ raw, p.2 ≠ []) :
    ∀ (fuel : Nat) (stack buf : List Nat),
    g.generate fuel stack buf ≠ GenResult.panic := by
  intro fuel stack buf
  obtain ⟨⟨s, hstart, hslt⟩, hWF⟩ := new_WF raw g hok halts
  unfold GrammarRust.generate
  rw [hstart]
  exact generateLoop_no_panic fuel g [s] buf hWF
    (fun i hi => by rcases List.mem_singleton.mp hi with rfl; exact hslt)

/-- Claim C4 (amended), witness: a concrete compiled grammar on which a
generate call with a dirty stack and buffer cannot panic. -/
theorem claim_C4_amended_generate_total_witness :
    GrammarRust.new rawZZ = Except.ok zzG ∧ (∀ p ∈ rawZZ, p.2 ≠ []) ∧
    zzG.generate 3 [5] [9] ≠ GenResult.panic :=
  ⟨rfl, by decide,
    claim_C4_amended_generate_total rawZZ zzG rfl (by decide) 3 [5] [9]⟩

/-- Claim C5, amended: for every input grammar accepted by the compiler
in which every rule has at least one alternative, every `NonTerminal` of
the final arena has a non-empty children list; each rule's `NonTerminal`
holds one `Expression` child per alternative of that rule; and every
other `NonTerminal` is a symbol-reference wrapper with exactly one child.
(As stated over all accepted inputs the claim is false: a rule with an
empty alternatives list leaves its empty placeholder in the final arena,
see the counterexample.) -/
theorem claim_C5_amended_nonterminal_children
    (raw : List (String × List (List String))) (g : GrammarRust)
    (hok : GrammarRust.new raw = Except.ok g)
    (halts : ∀ p ∈ raw, p.2 ≠ []) :
    (∀ ch, Fragment.NonTerminal ch ∈ g.fragments → ch ≠ []) ∧
    (∀ p ∈ raw, ∀ i, lookupName p.1 g.name_to_fragment = some i →
      ∃ ch, g.fragments[i]? = some (Fragment.NonTerminal ch) ∧
        ch.length = p.2.length ∧
        ∀ e ∈ ch, ∃ opts, g.fragments[e]? = some (Fragment.Expression opts)) ∧
    (∀ i ch, g.fragments[i]? = some (Fragment.NonTerminal ch) →
      (∃ p ∈ raw, lookupName p.1 g.name_to_fragment = some i) ∨
      ch.length = 1) := by
  obtain ⟨htab, hinv, _, hper⟩ := new_inv raw g hok
  refine ⟨?_, ?_, ?_⟩
  · intro ch hmem hche
    subst hche
    obtain ⟨i, hi⟩ := List.mem_iff_getElem?.mp hmem
    rcases hinv.ntShape i [] hi with ⟨_, p, hp, _⟩ |
        ⟨n2, a2, h1, _, h3, _⟩ | h1
    · exact List.not_mem_nil p hp
    · exact halts (n2, a2) h1 (List.length_eq_zero.mp h3.symm)
    · exact absurd h1 (by decide)
  · intro p hp i hlk
    rw [htab] at hlk
    obtain ⟨ch, hch, hlen, he⟩ := hper p hp i hlk
    exact ⟨ch, hch, hlen, fun e heu => (he e heu).2⟩
  · intro i ch hch
    rcases hinv.ntShape i ch hch with ⟨_, p, hp, _⟩ |
        ⟨n2, a2, h1, h2, _, _⟩ | h1
    · exact absurd hp (List.not_mem_nil p)
    · exact Or.inl ⟨(n2, a2), h1, by rw [htab]; exact h2⟩
    · exact Or.inr h1

/-- Claim C5 (amended), witness: the non-emptiness fact applied to a
concrete `NonTerminal` of the compiled zz grammar. -/
theorem claim_C5_amended_nonterminal_children_witness :
    GrammarRust.new rawZZ = Except.ok zzG ∧ (∀ p ∈ rawZZ, p.2 ≠ []) ∧
    ([4] : List Nat) ≠ [] :=
  ⟨rfl, by decide,
    (claim_C5_amended_nonterminal_children rawZZ zzG rfl (by decide)).1
      [4] (by decide)⟩
